import Mathlib

/-!
# Verification of the obsidian-mcp-server document core

Shallow embedding of the repository's document-structure and patch engine:

* `src/tools/patch.ts` — `patchFile` and its six patch operations;
* `src/tools/frontmatter.ts` — `parseYaml` / `serializeYaml` / `updateFrontmatter`;
* `src/utils/sections.ts` — `parseSections`, `buildHierarchy`, `fixEndLines`;
* `src/tools/sections.ts` — `findSection`;
* `src/tools/tags.ts` — the tag-matching predicate of `searchByTag`;
* `src/utils/etag.ts` — `generateEtag` wraps Node's `crypto` SHA-256 (an
  external library); the embedding abstracts it as a function parameter
  `etagFn : Str → Str`, since no claim depends on the digest's internals.

Strings are modelled as `List Char` (`Str`). JavaScript string primitives
(`split`, `trim`, `indexOf`, `startsWith`, `slice`, `splice`) are defined
below with their ECMAScript semantics on such lists; JS `\s` and `trim`
whitespace is modelled by the ASCII whitespace characters (the documents
the claims concern are ASCII; astral-plane code-unit splitting is out of
scope). JS `RegExp` is a host builtin: the two regex-driven patch
operations receive the compiled pattern's behaviour through an abstract
`RegexEngine` parameter; every other regex in the sources is a fixed
pattern translated to an explicit character-level scanner.
-/

set_option maxHeartbeats 1000000

abbrev Str := List Char

/-- The characters JavaScript's `trim` and `\s` treat as whitespace
(restricted to ASCII). -/
def jsIsWs (c : Char) : Bool :=
  c == ' ' || c == '\t' || c == '\n' || c == '\r' ||
  c == Char.ofNat 11 || c == Char.ofNat 12

/-- JS `String.prototype.trim`. -/
def jsTrim (s : Str) : Str :=
  ((s.dropWhile jsIsWs).reverse.dropWhile jsIsWs).reverse

/-- JS `String.prototype.split(sep)` for a single-character separator:
always returns at least one (possibly empty) field. -/
def jsSplit (sep : Char) : Str → List Str
  | [] => [[]]
  | c :: rest =>
    if c == sep then [] :: jsSplit sep rest
    else match jsSplit sep rest with
      | [] => [[c]]
      | f :: fs => (c :: f) :: fs

/-- JS `Array.prototype.join(sep)` / `String.prototype` concatenation. -/
def jsJoin (sep : Char) : List Str → Str
  | [] => []
  | [l] => l
  | l :: ls => l ++ sep :: jsJoin sep ls

/-- JS `String.prototype.startsWith`. -/
def strStarts (s pre : Str) : Bool := pre.isPrefixOf s

/-- JS `String.prototype.endsWith`. -/
def strEnds (s suf : Str) : Bool := suf.isPrefixOf s.reverse

/-- JS `String.prototype.indexOf` for a nonempty needle: index of the first
occurrence, `none` when absent (JS `-1`). -/
def jsIndexOf (hay needle : Str) : Option Nat :=
  match hay with
  | [] => if needle.isEmpty then some 0 else none
  | _ :: rest =>
    if needle.isPrefixOf hay then some 0
    else (jsIndexOf rest needle).map (· + 1)

/-- JS `String.prototype.indexOf` for a single character. -/
def jsIndexOfChar (hay : Str) (c : Char) : Option Nat :=
  match hay with
  | [] => none
  | x :: rest =>
    if x == c then some 0
    else (jsIndexOfChar rest c).map (· + 1)

/-- JS `String.prototype.toLowerCase` (ASCII range). -/
def jsToLower (s : Str) : Str := s.map Char.toLower

/-- Substring occurrence test (`hay.includes(needle)`). -/
def strContains (hay needle : Str) : Bool := (jsIndexOf hay needle).isSome

/-- JS `Array.prototype.splice(start, deleteCount, ...items)` on a list of
lines: returns the mutated array and the number of removed elements. -/
def jsSplice (l : List Str) (start deleteCount : Int) (items : List Str) :
    List Str × Nat :=
  let len : Int := l.length
  let aStart : Nat := if start < 0 then (max (len + start) 0).toNat
                      else (min start len).toNat
  let dc : Nat := (min (max deleteCount 0) (len - aStart)).toNat
  (l.take aStart ++ items ++ l.drop (aStart + dc), dc)

/-- Decimal digits of a natural number, most significant first (the fuel
argument makes the recursion structural — `n` has at most `n + 1` digits). -/
def natDigitsAux : Nat → Nat → Str
  | 0, _ => []
  | fuel + 1, n =>
    if n < 10 then [Char.ofNat (48 + n)]
    else natDigitsAux fuel (n / 10) ++ [Char.ofNat (48 + n % 10)]

/-- Decimal representation of a natural number. -/
def natDigits (n : Nat) : Str := natDigitsAux (n + 1) n

/-- JS `String(n)` for an integer-valued number. -/
def intToStr (i : Int) : Str :=
  if i < 0 then '-' :: natDigits i.natAbs else natDigits i.natAbs

/-- Digit-char test (`\d`). -/
def isDigitCh (c : Char) : Bool := '0' ≤ c && c ≤ '9'

/-- Numeric value of a digit string (fold, as `parseFloat` does on the
integer part). -/
def digitsVal (s : Str) : Nat :=
  s.foldl (fun acc c => acc * 10 + (c.toNat - 48)) 0

/-! ## Patch engine (`src/tools/patch.ts`) -/

/-- The six `PatchOperation.type` values. -/
inductive PatchType where
  | replace_lines | insert_after | delete_lines
  | replace_first | replace_all | replace_regex
deriving DecidableEq, Repr

/-- `PatchOperation` from `patch.ts`: every field beyond `type` is optional,
exactly as in the TypeScript interface. Line numbers are modelled as `Int`
(JS numbers; fractional values do not occur in the claims). -/
structure PatchOperation where
  type : PatchType
  startLine : Option Int := none
  endLine : Option Int := none
  line : Option Int := none
  content : Option Str := none
  search : Option Str := none
  replace : Option Str := none
  pattern : Option Str := none
  flags : Option Str := none
deriving Repr

/-- JS falsiness of an optional number field (`!patch.line`):
`undefined` and `0` are falsy. -/
def numFalsy (o : Option Int) : Bool := o.getD 0 == 0

/-- JS falsiness of an optional string field (`!patch.search`):
`undefined` and `""` are falsy. -/
def strFalsy (o : Option Str) : Bool := (o.getD []).isEmpty

/-- `escapeRegex` from `patch.ts`: prefix every character of the class
`[.*+?^$\x7b\x7d()|[\]\\]` with a backslash. -/
def escapeRegex (s : Str) : Str :=
  s.flatMap fun c =>
    if c == '.' || c == '*' || c == '+' || c == '?' || c == '^' || c == '$' ||
       c == Char.ofNat 123 || c == Char.ofNat 125 || c == '(' || c == ')' ||
       c == '|' || c == '[' || c == ']' || c == '\\'
    then ['\\', c] else [c]

/-- The JS `RegExp` host object, abstracted: `matchCount pattern flags content`
is `content.match(new RegExp(pattern, flags))?.length ?? 0`, and
`replace pattern flags content replacement` is
`content.replace(new RegExp(pattern, flags), replacement)`. -/
structure RegexEngine where
  matchCount : Str → Str → Str → Nat
  replace : Str → Str → Str → Str → Str

/-- A trivially executable engine (no pattern ever matches), used to
instantiate witnesses whose operations never reach the regex cases. -/
def noMatchEngine : RegexEngine := ⟨fun _ _ _ => 0, fun _ _ c _ => c⟩

/-- Loop state of `patchFile`: `(content, patchesApplied, linesAffected)`. -/
abbrev PatchState := Str × Nat × Int

/-- One iteration of the `for (const patch of patches)` loop in `patchFile`. -/
def applyOp (eng : RegexEngine) (p : PatchOperation) : PatchState → PatchState :=
  fun (content, applied, affected) =>
  let lines := jsSplit '\n' content
  match p.type with
  | .replace_lines =>
    if numFalsy p.startLine || numFalsy p.endLine || p.content.isNone then
      (content, applied, affected)
    else
      let sl := p.startLine.getD 0
      let el := p.endLine.getD 0
      let start := sl - 1
      let newLines := jsSplit '\n' (p.content.getD [])
      let spliced := (jsSplice lines start (el - start) newLines).1
      (jsJoin '\n' spliced, applied + 1, affected + (el - start))
  | .insert_after =>
    if numFalsy p.line || p.content.isNone then (content, applied, affected)
    else
      let idx := p.line.getD 0
      let newLines := jsSplit '\n' (p.content.getD [])
      let spliced := (jsSplice lines idx 0 newLines).1
      (jsJoin '\n' spliced, applied + 1, affected + newLines.length)
  | .delete_lines =>
    if numFalsy p.startLine || numFalsy p.endLine then (content, applied, affected)
    else
      let sl := p.startLine.getD 0
      let el := p.endLine.getD 0
      let start := sl - 1
      let res := jsSplice lines start (el - start) []
      (jsJoin '\n' res.1, applied + 1, affected + res.2)
  | .replace_first =>
    if strFalsy p.search || p.replace.isNone then (content, applied, affected)
    else
      let search := p.search.getD []
      let rep := p.replace.getD []
      match jsIndexOf content search with
      | none => (content, applied, affected)
      | some i =>
        (content.take i ++ rep ++ content.drop (i + search.length),
         applied + 1, affected + 1)
  | .replace_all =>
    if strFalsy p.search || p.replace.isNone then (content, applied, affected)
    else
      let pat := escapeRegex (p.search.getD [])
      let n := eng.matchCount pat ['g'] content
      if n == 0 then (content, applied, affected)
      else (eng.replace pat ['g'] content (p.replace.getD []),
            applied + 1, affected + n)
  | .replace_regex =>
    if strFalsy p.pattern || p.replace.isNone then (content, applied, affected)
    else
      let pat := p.pattern.getD []
      let fl := if strFalsy p.flags then ['g'] else p.flags.getD []
      let n := eng.matchCount pat fl content
      if n == 0 then (content, applied, affected)
      else (eng.replace pat fl content (p.replace.getD []),
            applied + 1, affected + n)

/-- The patch loop of `patchFile`: sequential left-to-right application. -/
def runPatches (eng : RegexEngine) (content : Str) (ops : List PatchOperation) :
    PatchState :=
  ops.foldl (fun st p => applyOp eng p st) (content, 0, 0)

/-- The content transformation a single operation performs, in isolation. -/
def applyContent (eng : RegexEngine) (p : PatchOperation) (c : Str) : Str :=
  (applyOp eng p (c, 0, 0)).1

/-- The JSON conflict payload both mutating tools build on an ETag mismatch:
exactly the fields `error`, `message`, `currentEtag`, `expectedEtag`. -/
structure ConflictPayload where
  error : Str
  message : Str
  currentEtag : Str
  expectedEtag : Str
deriving DecidableEq, Repr

def conflictErrorText : Str := "Conflict detected".data

def conflictMessageText : Str := "File has been modified since last read".data

/-- Result of `patchFile` once the file exists: either the conflict error
(no write) or a successful write of the patched text. -/
inductive PatchOutcome where
  | conflict (payload : ConflictPayload)
  | success (newContent : Str) (patchesApplied : Nat) (linesAffected : Int)
      (etag : Str)
deriving Repr

/-- The document text on disk after the operation: `writeFileSync` runs only
on the success path. -/
def PatchOutcome.written (o : PatchOutcome) (stored : Str) : Str :=
  match o with
  | .conflict _ => stored
  | .success c _ _ _ => c

/-- `patchFile` (file-exists path), with the ETag function and the regex
host abstracted. `stored` is the current on-disk text. -/
def patchFile (etagFn : Str → Str) (eng : RegexEngine) (stored : Str)
    (patches : List PatchOperation) (expectedEtag : Option Str) : PatchOutcome :=
  let currentEtag := etagFn stored
  if (!strFalsy expectedEtag) && currentEtag != expectedEtag.getD [] then
    .conflict ⟨conflictErrorText, conflictMessageText, currentEtag,
               expectedEtag.getD []⟩
  else
    let st := runPatches eng stored patches
    .success st.1 st.2.1 st.2.2 (etagFn st.1)

/-! ## Frontmatter codec (`src/tools/frontmatter.ts`) -/

/-- The `unknown` values the frontmatter codec handles. JS numbers are
modelled as rationals: every number the parser produces comes from a
decimal literal, and `String()` of such a value prints its decimal
expansion (exact here; IEEE-754 double rounding of extreme literals is out
of scope). A JS object is an insertion-ordered string-keyed map. -/
inductive YamlValue where
  | str (s : Str)
  | num (q : Rat)
  | bool (b : Bool)
  | null
  | list (items : List YamlValue)
  | obj (entries : List (Str × YamlValue))

/-- `result[key] = value` on a JS object: an existing key keeps its position
and is overwritten, a new key is appended. -/
def objSet : List (Str × YamlValue) → Str → YamlValue → List (Str × YamlValue)
  | [], k, v => [(k, v)]
  | (k', v') :: rest, k, v =>
    if k' == k then (k', v) :: rest else (k', v') :: objSet rest k v

/-- Object spread `{...a, ...b}`. -/
def objMerge (a b : List (Str × YamlValue)) : List (Str × YamlValue) :=
  b.foldl (fun acc e => objSet acc e.1 e.2) a

/-- `delete obj[key]`. -/
def objDelete (m : List (Str × YamlValue)) (k : Str) : List (Str × YamlValue) :=
  m.filter (fun e => e.1 ≠ k)

def dquoteCh : Char := Char.ofNat 34

def squoteCh : Char := Char.ofNat 39

/-- The optional leading minus of the number shape. -/
def stripMinus (s : Str) : Str :=
  match s with | '-' :: r => r | _ => s

/-- The number shape `/^-?\d+(\.\d+)?$/` tested by `parseValue`. -/
def numShaped (s : Str) : Bool :=
  let t := stripMinus s
  let d1 := t.takeWhile isDigitCh
  let rest := t.drop d1.length
  !d1.isEmpty &&
    (rest.isEmpty ||
      (strStarts rest ['.'] && !rest.tail.isEmpty && rest.tail.all isDigitCh))

/-- `parseFloat` on a string matching the number shape. -/
def numValue (s : Str) : Rat :=
  let sgn : Int := if strStarts s ['-'] then -1 else 1
  let t := stripMinus s
  let d1 := t.takeWhile isDigitCh
  let rest := t.drop d1.length
  match rest with
  | '.' :: d2 =>
    mkRat (sgn * (digitsVal d1 * 10 ^ d2.length + digitsVal d2)) (10 ^ d2.length)
  | _ => (sgn * digitsVal d1 : Int)

/-- The date shape `/^\d{4}-\d{2}-\d{2}$/`. -/
def dateShaped (s : Str) : Bool :=
  match s with
  | [a, b, c, d, h1, e, f, h2, g, i] =>
    isDigitCh a && isDigitCh b && isDigitCh c && isDigitCh d &&
    h1 == '-' && isDigitCh e && isDigitCh f &&
    h2 == '-' && isDigitCh g && isDigitCh i
  | _ => false

/-- `parseValue` from `frontmatter.ts`: quote stripping, booleans, null,
numbers, dates (kept as strings), else the raw string. -/
def parseValue (v : Str) : YamlValue :=
  if (strStarts v [dquoteCh] && strEnds v [dquoteCh]) ||
     (strStarts v [squoteCh] && strEnds v [squoteCh]) then
    .str v.tail.dropLast
  else if v == "true".data then .bool true
  else if v == "false".data then .bool false
  else if v == "null".data || v == ['~'] then .null
  else if numShaped v then .num (numValue v)
  else if dateShaped v then .str v
  else .str v

/-- Loop state of `parseYaml`. -/
structure PState where
  result : List (Str × YamlValue)
  currentKey : Str
  inArray : Bool
  arrayItems : List YamlValue

/-- One iteration of the `for (const line of lines)` loop in `parseYaml`. -/
def parseLine (st : PState) (line : Str) : PState :=
  let trimmed := jsTrim line
  if trimmed.isEmpty then st
  else if strStarts trimmed ['-', ' '] && st.inArray then
    { st with arrayItems := st.arrayItems ++ [parseValue (jsTrim (trimmed.drop 2))] }
  else
    -- end-of-array flush (falls through to the key/value logic, as in the source)
    let st :=
      if st.inArray && !strStarts trimmed ['-'] && !strStarts line [' '] then
        { st with result := objSet st.result st.currentKey (.list st.arrayItems),
                  inArray := false, arrayItems := [] }
      else st
    let dashCase : PState :=
      if !st.currentKey.isEmpty && strStarts trimmed ['-'] then
        { st with inArray := true,
                  arrayItems := st.arrayItems ++ [parseValue (jsTrim (trimmed.drop 1))] }
      else st
    match jsIndexOfChar trimmed ':' with
    | none => dashCase
    | some colonIdx =>
      if colonIdx > 0 then
        let key := jsTrim (trimmed.take colonIdx)
        let valueStr := jsTrim (trimmed.drop (colonIdx + 1))
        if valueStr.isEmpty || valueStr == ['|'] || valueStr == ['>'] then
          { st with currentKey := key }
        else if strStarts valueStr ['['] && strEnds valueStr [']'] then
          let inner := valueStr.tail.dropLast
          let items := (jsSplit ',' inner).map (fun s => parseValue (jsTrim s))
          { st with result := objSet st.result key (.list items) }
        else
          { st with result := objSet st.result key (parseValue valueStr) }
      else dashCase

/-- `parseYaml` from `frontmatter.ts`. -/
def parseYaml (yaml : Str) : List (Str × YamlValue) :=
  let st := (jsSplit '\n' yaml).foldl parseLine ⟨[], [], false, []⟩
  if st.inArray && !st.currentKey.isEmpty then
    objSet st.result st.currentKey (.list st.arrayItems)
  else st.result

/-- Fractional decimal digits of `r/den` (terminates within `fuel` digits;
exact for the denominators `parseFloat` produces). -/
def fracDigits : Nat → Nat → Nat → Str
  | 0, _, _ => []
  | _, 0, _ => []
  | fuel + 1, r, den =>
    Char.ofNat (48 + r * 10 / den) :: fracDigits fuel (r * 10 % den) den

/-- JS `String()` of a number (decimal model). -/
def ratToStr (q : Rat) : Str :=
  if q.den == 1 then intToStr q.num
  else
    (if q.num < 0 then ['-'] else []) ++
    natDigits (q.num.natAbs / q.den) ++
    '.' :: fracDigits 30 (q.num.natAbs % q.den) q.den

/-- `serializeValue` from `frontmatter.ts`. -/
def serializeValue : YamlValue → Str
  | .str s =>
    if strContains s [':'] || strContains s ['#'] || strContains s ['\n'] then
      dquoteCh :: (s.flatMap fun c => if c == dquoteCh then ['\\', dquoteCh] else [c])
        ++ [dquoteCh]
    else s
  | .bool b => if b then "true".data else "false".data
  | .num q => ratToStr q
  | _ => "null".data

/-- An inline-array item: strings containing `,` or `:` are double-quoted,
everything else is `String(v)` (only strings and numbers reach this). -/
def inlineItem : YamlValue → Str
  | .str s =>
    if strContains s [','] || strContains s [':'] then
      dquoteCh :: s ++ [dquoteCh]
    else s
  | .num q => ratToStr q
  | v => serializeValue v

/-- `"  ".repeat(indent)`. -/
def indentStr (n : Nat) : Str := List.replicate (2 * n) ' '

def isStrOrNum : YamlValue → Bool
  | .str _ => true
  | .num _ => true
  | _ => false

/-- Separator-string join (`Array.prototype.join(", ")`). -/
def jsJoinSep (sep : Str) : List Str → Str
  | [] => []
  | [l] => l
  | l :: ls => l ++ sep ++ jsJoinSep sep ls

mutual

/-- `serializeYaml` from `frontmatter.ts`: the pushed `lines`, joined with
`"\n"`, plus a trailing newline. A nested block is pushed as one element
(itself ending in a newline), exactly as the source does. -/
def serializeYaml (entries : List (Str × YamlValue)) (indent : Nat) : Str :=
  jsJoin '\n' (serializeEntries entries indent) ++ ['\n']

/-- The `lines` array built by `serializeYaml`'s entry loop. -/
def serializeEntries : List (Str × YamlValue) → Nat → List Str
  | [], _ => []
  | (k, v) :: rest, indent => entryPush k v indent ++ serializeEntries rest indent

/-- The lines one `[key, value]` entry pushes. -/
def entryPush (k : Str) (v : YamlValue) (indent : Nat) : List Str :=
  let pfx := indentStr indent
  match v with
  | .null => [pfx ++ k ++ ": null".data]
  | .list [] => [pfx ++ k ++ ": []".data]
  | .list items =>
    if items.all isStrOrNum then
      [pfx ++ k ++ ": [".data ++ jsJoinSep ", ".data (items.map inlineItem) ++ [']']]
    else
      (pfx ++ k ++ [':']) :: blockItems items indent
  | .obj e =>
    (pfx ++ k ++ [':']) :: [serializeYaml e (indent + 1)]
  | other => [pfx ++ k ++ ':' :: ' ' :: serializeValue other]

/-- The lines pushed for the items of a block-form list. `Object.entries`
of a nested array yields index-keyed entries; `enumEntryLines` produces
them directly. -/
def blockItems : List YamlValue → Nat → List Str
  | [], _ => []
  | item :: rest, indent =>
    (match item with
     | .obj e =>
       (indentStr indent ++ "  -".data) ::
         [serializeYaml e (indent + 2)]
     | .list l =>
       (indentStr indent ++ "  -".data) ::
         [jsJoin '\n' (enumEntryLines l 0 (indent + 2)) ++ ['\n']]
     | other => [indentStr indent ++ "  - ".data ++ serializeValue other]) ++
    blockItems rest indent

/-- `serializeEntries` over `Object.entries` of an array: keys are the
stringified indices. -/
def enumEntryLines : List YamlValue → Nat → Nat → List Str
  | [], _, _ => []
  | v :: rest, i, indent => entryPush (intToStr i) v indent ++ enumEntryLines rest (i + 1) indent

end

/-- Match of `FRONTMATTER_REGEX`'s `\r?\n` at the head: length consumed. -/
def newlineAt : Str → Option Nat
  | '\r' :: '\n' :: _ => some 2
  | '\n' :: _ => some 1
  | _ => none

/-- Match of the regex tail `\r?\n---(\r?\n|$)` at the head of `s`. -/
def fmTailLen (s : Str) : Option Nat :=
  match newlineAt s with
  | none => none
  | some n1 =>
    let rest := s.drop n1
    if strStarts rest "---".data then
      let rest2 := rest.drop 3
      match newlineAt rest2 with
      | some n2 => some (n1 + 3 + n2)
      | none => if rest2.isEmpty then some (n1 + 3) else none
    else none

/-- Lazy scan of `([\s\S]*?)` in `FRONTMATTER_REGEX`: shortest body such
that the tail matches right after it. Returns `(bodyLength, tailLength)`.
The tail needs a leading newline, so it never matches at the empty string. -/
def fmScan : Str → Option (Nat × Nat)
  | [] => none
  | c :: rest =>
    match fmTailLen (c :: rest) with
    | some t => some (0, t)
    | none => (fmScan rest).map (fun p => (p.1 + 1, p.2))

/-- `content.match(FRONTMATTER_REGEX)` of `frontmatter.ts`
(`/^---\r?\n([\s\S]*?)\r?\n---(\r?\n|$)/`): the captured group and the full
match length. -/
def fmMatch (content : Str) : Option (Str × Nat) :=
  if strStarts content "---".data then
    let afterDashes := content.drop 3
    match newlineAt afterDashes with
    | none => none
    | some n1 =>
      let body := afterDashes.drop n1
      match fmScan body with
      | none => none
      | some (b, t) => some (body.take b, 3 + n1 + b + t)
  else none

/-- The mutation `updateFrontmatter` performs after the conflict check:
parse, merge, delete, re-serialize, reassemble. Returns the written text
and the merged mapping. -/
def applyFmUpdate (stored : Str) (updates : List (Str × YamlValue))
    (removeKeys : Option (List Str)) : Str × List (Str × YamlValue) :=
  let parsed := fmMatch stored
  let currentFm := match parsed with
    | some (raw, _) => parseYaml raw
    | none => []
  let bodyStart := match parsed with
    | some (_, len) => len
    | none => 0
  let merged := objMerge currentFm updates
  let newFm := match removeKeys with
    | some ks => ks.foldl objDelete merged
    | none => merged
  let newFmYaml := serializeYaml newFm 0
  let body := stored.drop bodyStart
  ("---\n".data ++ newFmYaml ++ "---\n".data ++ body, newFm)

/-- Result of `updateFrontmatter` once the file exists. -/
inductive FmOutcome where
  | conflict (payload : ConflictPayload)
  | success (newContent : Str) (frontmatter : List (Str × YamlValue)) (etag : Str)

/-- The document text on disk after the operation. -/
def FmOutcome.written (o : FmOutcome) (stored : Str) : Str :=
  match o with
  | .conflict _ => stored
  | .success c _ _ => c

/-- `updateFrontmatter` (file-exists path). -/
def updateFrontmatter (etagFn : Str → Str) (stored : Str)
    (updates : List (Str × YamlValue)) (removeKeys : Option (List Str))
    (expectedEtag : Option Str) : FmOutcome :=
  let currentEtag := etagFn stored
  if (!strFalsy expectedEtag) && currentEtag != expectedEtag.getD [] then
    .conflict ⟨conflictErrorText, conflictMessageText, currentEtag,
               expectedEtag.getD []⟩
  else
    let res := applyFmUpdate stored updates removeKeys
    .success res.1 res.2 (etagFn res.1)

/-! ## Section parser (`src/utils/sections.ts`) -/

/-- The `Section` interface. `heading = none` is the implicit pre-content
region. -/
structure Section where
  heading : Option Str
  level : Nat
  startLine : Nat
  endLine : Nat
  lineCount : Nat
  children : List Section

/-- Test of `/^(`{3,}|~{3,})/`: the line opens with at least three
backticks or at least three tildes. -/
def fenceTest (l : Str) : Bool :=
  strStarts l (List.replicate 3 (Char.ofNat 96)) || strStarts l "~~~".data

/-- Match of `/^(#{1,6})\s+/`: 1–6 leading `#` followed by whitespace;
returns the heading level. Seven or more `#` never match (every shorter
`#{k}` alternative is followed by another `#`, not `\s`). -/
def headingLevel (l : Str) : Option Nat :=
  let hashes := l.takeWhile (· == '#')
  let n := hashes.length
  if 1 ≤ n && n ≤ 6 then
    match l.drop n with
    | c :: _ => if jsIsWs c then some n else none
    | [] => none
  else none

/-- A detected heading: the full line text, its level, its 1-indexed line. -/
structure HeadInfo where
  text : Str
  level : Nat
  line : Nat
deriving Repr

/-- The heading-detection loop of `parseSections`: scans lines from 1-indexed
line number `n`, tracking the in-code-fence flag. -/
def findHeadings : List Str → Nat → Bool → List HeadInfo
  | [], _, _ => []
  | l :: rest, n, inCode =>
    if fenceTest l then findHeadings rest (n + 1) (!inCode)
    else if inCode then findHeadings rest (n + 1) inCode
    else if strStarts l ['>'] then findHeadings rest (n + 1) inCode
    else match headingLevel l with
      | some lv => ⟨l, lv, n⟩ :: findHeadings rest (n + 1) inCode
      | none => findHeadings rest (n + 1) inCode

/-- Frontmatter detection of `parseSections`: if line 1 is exactly `---`,
the first later line equal to `---` closes the block. Returns the block's
1-indexed `(startLine, endLine)`. -/
def sectionFrontmatter (lines : List Str) : Option (Nat × Nat) :=
  match lines with
  | first :: rest =>
    if first == "---".data then
      match rest.findIdx? (· == "---".data) with
      | some j => some (1, j + 2)
      | none => none
    else none
  | [] => none

/-- A flat region: `section` objects are created with empty `children`. -/
def mkFlat (h : Option Str) (lv s e : Nat) : Section :=
  ⟨h, lv, s, e, e + 1 - s, []⟩

/-- The flat heading regions: each heading's region ends one line before the
next heading, the last runs to end of document. -/
def flatHeads : List HeadInfo → Nat → List Section
  | [], _ => []
  | [h], total => [mkFlat (some h.text) h.level h.line total]
  | h :: h' :: rest, total =>
    mkFlat (some h.text) h.level h.line (h'.line - 1) :: flatHeads (h' :: rest) total

/-- The flat section list of `parseSections`: the optional `heading = null`
pre-content region followed by the heading regions. -/
def flatSections (headings : List HeadInfo) (contentStartLine total : Nat) :
    List Section :=
  match headings with
  | [] => []
  | h :: _ =>
    if contentStartLine < h.line then
      mkFlat none 0 contentStartLine (h.line - 1) :: flatHeads headings total
    else flatHeads headings total

/-- `children.push(t)` on a stack frame. -/
def addChild (p : Section) (t : Section) : Section :=
  { p with children := p.children ++ [t] }

theorem sizeOf_children_lt (s : Section) : sizeOf s.children < sizeOf s := by
  cases s; simp; try omega

/-- The `while`-pop of `buildHierarchy`, functionally: popping a frame
attaches its (now complete) subtree to the frame below, or to the root list
when the stack empties. `lvl` is the incoming heading's level. -/
def attachPop (lvl : Nat) : List Section → List Section →
    List Section × List Section
  | [], roots => ([], roots)
  | t :: rest, roots =>
    if lvl ≤ t.level then
      match rest with
      | [] => attachPop lvl [] (roots ++ [t])
      | q :: qs => attachPop lvl (addChild q t :: qs) roots
    else (t :: rest, roots)
  termination_by st _ => st.length
  decreasing_by all_goals (simp only [List.length_cons, List.length_nil]; omega)

/-- Collapse of the remaining stack once all flat sections are consumed
(every level is `≥ 0`, so this pops everything). -/
def collapseStack : List Section → List Section → List Section
  | [], roots => roots
  | t :: rest, roots =>
    match rest with
    | [] => roots ++ [t]
    | q :: qs => collapseStack (addChild q t :: qs) roots
  termination_by st _ => st.length
  decreasing_by all_goals (simp only [List.length_cons, List.length_nil]; omega)

/-- The main loop of `buildHierarchy`. In the source a section is attached
to its parent's `children` the moment it is pushed and then mutated in
place; here the attachment happens when a frame is popped, which yields the
same final tree. A `heading = null` region goes straight to the root list
without touching the stack. -/
def hierGo : List Section → List Section → List Section → List Section
  | [], stack, roots => collapseStack stack roots
  | s :: rest, stack, roots =>
    if s.heading.isNone then hierGo rest stack (roots ++ [s])
    else
      let pr := attachPop s.level stack roots
      hierGo rest (s :: pr.1) pr.2

/-- `buildHierarchy` from `sections.ts` (without the final `fixEndLines`,
which the source applies inside it; the pipeline below composes them). -/
def buildHierarchy (flat : List Section) : List Section :=
  hierGo flat [] []

mutual

/-- `fixEndLines` on one section: recurse into the children first, then
raise `endLine` to cover the last child. The `getLastD` default is never
taken: `fixSecs` of a nonempty list is nonempty. -/
def fixSec (s : Section) : Section :=
  match h : s.children with
  | [] => s
  | c :: cs =>
    let fixed := fixSecs (c :: cs)
    let lastC := fixed.getLastD s
    let newEnd := max s.endLine lastC.endLine
    { s with endLine := newEnd, lineCount := newEnd + 1 - s.startLine,
             children := fixed }
  termination_by sizeOf s
  decreasing_by rw [← h]; exact sizeOf_children_lt s

/-- `fixEndLines` over a section list. -/
def fixSecs : List Section → List Section
  | [] => []
  | s :: rest => fixSec s :: fixSecs rest
  termination_by l => sizeOf l
  decreasing_by all_goals (simp only [List.cons.sizeOf_spec]; omega)

end

/-- Parsed result of `parseSections`. -/
structure ParsedSections where
  frontmatter : Option (Nat × Nat)
  sections : List Section
  totalLines : Nat

/-- The 1-indexed line content scanning starts at: line after the closing
`---` when frontmatter is present, else line 1. -/
def contentStartOf (lines : List Str) : Nat :=
  match sectionFrontmatter lines with
  | some (_, e) => e + 1
  | none => 1

/-- `parseSections` from `sections.ts`. -/
def parseSections (content : Str) : ParsedSections :=
  let lines := jsSplit '\n' content
  let totalLines := lines.length
  let fm := sectionFrontmatter lines
  let contentStartLine := contentStartOf lines
  let headings := findHeadings (lines.drop (contentStartLine - 1)) contentStartLine false
  let flat := flatSections headings contentStartLine totalLines
  ⟨fm, fixSecs (buildHierarchy flat), totalLines⟩

/-- `findSection` from `src/tools/sections.ts`: first match, checking each
section before its children, children before later siblings. -/
def findSection : List Section → Str → Option Section
  | [], _ => none
  | s :: rest, h =>
    if s.heading == some h then some s
    else match findSection s.children h with
      | some c => some c
      | none => findSection rest h
  termination_by l _ => sizeOf l
  decreasing_by
    all_goals have := sizeOf_children_lt s
    all_goals simp only [List.cons.sizeOf_spec]
    all_goals omega

/-! ## Tag matching (`src/tools/tags.ts`) -/

/-- Search-tag normalization in `searchByTag`:
`t.replace(/^#/, "").toLowerCase()`. -/
def normalizeSearchTag (t : Str) : Str :=
  jsToLower (match t with | '#' :: r => r | s => s)

/-- The match test of `searchByTag`: document tag lowercased, then equal to
the normalized search tag or extending it by a `/`-separated segment. -/
def tagMatches (searchTag docTag : Str) : Bool :=
  let s := normalizeSearchTag searchTag
  let n := jsToLower docTag
  n == s || strStarts n (s ++ ['/'])



/-! ## Shared lemmas about the conflict check -/

/-- The four JSON fields of the conflict payload. -/
def ConflictPayload.fields (p : ConflictPayload) : List Str :=
  [p.error, p.message, p.currentEtag, p.expectedEtag]

theorem strFalsy_some_ne_nil {e : Str} (he : e ≠ []) :
    strFalsy (some e) = false := by
  cases e with
  | nil => exact absurd rfl he
  | cons c r => rfl

theorem patchFile_conflict_eq (etagFn : Str → Str) (eng : RegexEngine)
    (stored : Str) (patches : List PatchOperation) (e : Str)
    (he : e ≠ []) (hm : etagFn stored ≠ e) :
    patchFile etagFn eng stored patches (some e) =
      .conflict ⟨conflictErrorText, conflictMessageText, etagFn stored, e⟩ := by
  simp [patchFile, strFalsy_some_ne_nil he, hm]

theorem updateFrontmatter_conflict_eq (etagFn : Str → Str) (stored : Str)
    (updates : List (Str × YamlValue)) (removeKeys : Option (List Str)) (e : Str)
    (he : e ≠ []) (hm : etagFn stored ≠ e) :
    updateFrontmatter etagFn stored updates removeKeys (some e) =
      .conflict ⟨conflictErrorText, conflictMessageText, etagFn stored, e⟩ := by
  simp [updateFrontmatter, strFalsy_some_ne_nil he, hm]

theorem patchFile_skip_check (etagFn : Str → Str) (eng : RegexEngine)
    (stored : Str) (patches : List PatchOperation)
    (ee : Option Str) (hee : strFalsy ee = true) :
    patchFile etagFn eng stored patches ee =
      .success (runPatches eng stored patches).1
        (runPatches eng stored patches).2.1
        (runPatches eng stored patches).2.2
        (etagFn (runPatches eng stored patches).1) := by
  simp [patchFile, hee]

theorem updateFrontmatter_skip_check (etagFn : Str → Str) (stored : Str)
    (updates : List (Str × YamlValue)) (removeKeys : Option (List Str))
    (ee : Option Str) (hee : strFalsy ee = true) :
    updateFrontmatter etagFn stored updates removeKeys ee =
      .success (applyFmUpdate stored updates removeKeys).1
        (applyFmUpdate stored updates removeKeys).2
        (etagFn (applyFmUpdate stored updates removeKeys).1) := by
  simp [updateFrontmatter, hee]

/-- C1: a patch or frontmatter-update request whose supplied expected
fingerprint differs from the fingerprint of the current on-disk content
performs no mutation (the stored text is unchanged) and returns the
structured Conflict payload carrying both fingerprints. The supplied
fingerprint is nonempty, as every fingerprint the system hands out is. -/
theorem stale_etag_conflict_no_mutation
    (etagFn : Str → Str) (eng : RegexEngine) (stored : Str)
    (patches : List PatchOperation) (updates : List (Str × YamlValue))
    (removeKeys : Option (List Str)) (e : Str)
    (he : e ≠ []) (hm : etagFn stored ≠ e) :
    patchFile etagFn eng stored patches (some e) =
      .conflict ⟨conflictErrorText, conflictMessageText, etagFn stored, e⟩ ∧
    (patchFile etagFn eng stored patches (some e)).written stored = stored ∧
    updateFrontmatter etagFn stored updates removeKeys (some e) =
      .conflict ⟨conflictErrorText, conflictMessageText, etagFn stored, e⟩ ∧
    (updateFrontmatter etagFn stored updates removeKeys (some e)).written stored
      = stored := by
  refine ⟨patchFile_conflict_eq etagFn eng stored patches e he hm, ?_,
          updateFrontmatter_conflict_eq etagFn stored updates removeKeys e he hm, ?_⟩
  · rw [patchFile_conflict_eq etagFn eng stored patches e he hm]; rfl
  · rw [updateFrontmatter_conflict_eq etagFn stored updates removeKeys e he hm]; rfl

theorem stale_etag_conflict_no_mutation_witness :
    ("bbbb".data ≠ ([] : Str)) ∧
    ((fun _ => "aaaa".data) "doc".data ≠ "bbbb".data) ∧
    patchFile (fun _ => "aaaa".data) noMatchEngine "doc".data [] (some "bbbb".data) =
      .conflict ⟨conflictErrorText, conflictMessageText, "aaaa".data, "bbbb".data⟩ :=
  ⟨by decide, by decide,
   (stale_etag_conflict_no_mutation (fun _ => "aaaa".data) noMatchEngine "doc".data
     [] [] none "bbbb".data (by decide) (by decide)).1⟩

/-! ## C9: conflict payload contents -/

/-- The stand-in fingerprint function for the C9 counterexample run
(deterministic, like the SHA-256 digest it replaces). -/
def cexEtagFn : Str → Str := fun s => intToStr s.length

def cexDoc : Str := "hello content".data

def cexPayload : ConflictPayload :=
  ⟨conflictErrorText, conflictMessageText, "13".data, "0".data⟩

/-- C9 counterexample: a conflicting patch and a conflicting frontmatter
update both return a payload whose only fields are the error label, the
fixed message and the two fingerprints — the current document content
(`"hello content"`) appears nowhere in it, so the caller cannot
re-synchronize from the response alone. -/
theorem conflict_payload_omits_content_cex :
    patchFile cexEtagFn noMatchEngine cexDoc [] (some "0".data) =
      .conflict cexPayload ∧
    updateFrontmatter cexEtagFn cexDoc [] none (some "0".data) =
      .conflict cexPayload ∧
    cexPayload.fields.all (fun f => !strContains f cexDoc) = true := by
  refine ⟨?_, ?_, by decide⟩ <;> rfl

/-- C9 (amended): on a fingerprint mismatch the structured Conflict error
carries exactly the error label, a fixed explanatory message and both
fingerprints — but not the current document content; re-synchronizing
requires a further read. -/
theorem conflict_payload_both_etags
    (etagFn : Str → Str) (eng : RegexEngine) (stored : Str)
    (patches : List PatchOperation) (updates : List (Str × YamlValue))
    (removeKeys : Option (List Str)) (e : Str)
    (he : e ≠ []) (hm : etagFn stored ≠ e) :
    patchFile etagFn eng stored patches (some e) =
      .conflict ⟨conflictErrorText, conflictMessageText, etagFn stored, e⟩ ∧
    updateFrontmatter etagFn stored updates removeKeys (some e) =
      .conflict ⟨conflictErrorText, conflictMessageText, etagFn stored, e⟩ ∧
    (ConflictPayload.fields
      ⟨conflictErrorText, conflictMessageText, etagFn stored, e⟩ =
        [conflictErrorText, conflictMessageText, etagFn stored, e]) :=
  ⟨patchFile_conflict_eq etagFn eng stored patches e he hm,
   updateFrontmatter_conflict_eq etagFn stored updates removeKeys e he hm,
   rfl⟩

theorem conflict_payload_both_etags_witness :
    patchFile cexEtagFn noMatchEngine "note text".data [] (some "z".data) =
      .conflict ⟨conflictErrorText, conflictMessageText, "9".data, "z".data⟩ :=
  (conflict_payload_both_etags cexEtagFn noMatchEngine "note text".data
    [] [] none "z".data (by decide) (by decide)).1

/-! ## C10: omitted or empty expected fingerprint -/

/-- C10: when the expected fingerprint is omitted — or supplied as the
empty string, which the guard treats as absent — no conflict check happens:
both mutating operations unconditionally apply and write their mutation,
whatever the on-disk content is. -/
theorem no_expected_etag_skips_check
    (etagFn : Str → Str) (eng : RegexEngine) (stored : Str)
    (patches : List PatchOperation) (updates : List (Str × YamlValue))
    (removeKeys : Option (List Str)) :
    (∀ ee, ee = none ∨ ee = some [] →
      patchFile etagFn eng stored patches ee =
        .success (runPatches eng stored patches).1
          (runPatches eng stored patches).2.1
          (runPatches eng stored patches).2.2
          (etagFn (runPatches eng stored patches).1) ∧
      updateFrontmatter etagFn stored updates removeKeys ee =
        .success (applyFmUpdate stored updates removeKeys).1
          (applyFmUpdate stored updates removeKeys).2
          (etagFn (applyFmUpdate stored updates removeKeys).1)) := by
  rintro ee (rfl | rfl) <;>
    exact ⟨patchFile_skip_check etagFn eng stored patches _ rfl,
           updateFrontmatter_skip_check etagFn stored updates removeKeys _ rfl⟩

theorem no_expected_etag_skips_check_witness :
    patchFile cexEtagFn noMatchEngine "abc".data [] none =
      .success "abc".data 0 0 "3".data :=
  ((no_expected_etag_skips_check cexEtagFn noMatchEngine "abc".data [] [] none)
    none (Or.inl rfl)).1

/-! ## C2: `insert_after` with `line = 0` -/

def insertAtStartOp : PatchOperation :=
  { type := .insert_after, line := some 0, content := some "X".data }

/-- C2 (divergence run): an `insert_after` operation with `line = 0` and a
content string is silently skipped — `!patch.line` treats the number `0` as
a missing field — so the document is unchanged, the operation is not
counted as applied, and `patchFile` reports success with zero patches
applied, instead of inserting the content before the first line. -/
theorem insert_after_line_zero_skipped :
    runPatches noMatchEngine "A\nB".data [insertAtStartOp] = ("A\nB".data, 0, 0) ∧
    patchFile cexEtagFn noMatchEngine "A\nB".data [insertAtStartOp] none =
      .success "A\nB".data 0 0 "3".data ∧
    applyContent noMatchEngine insertAtStartOp "A\nB".data ≠ "X\nA\nB".data :=
  ⟨rfl, rfl, by decide⟩

/-! ## C3: sequential cumulative application -/

theorem applyOp_fst (eng : RegexEngine) (p : PatchOperation) (c : Str)
    (a : Nat) (n : Int) :
    (applyOp eng p (c, a, n)).1 = applyContent eng p c := by
  unfold applyContent applyOp
  cases p.type <;> dsimp only <;> (repeat' split) <;> rfl

theorem runPatches_foldl_aux (eng : RegexEngine) (ops : List PatchOperation) :
    ∀ (c : Str) (a : Nat) (n : Int),
      (ops.foldl (fun st p => applyOp eng p st) (c, a, n)).1 =
        ops.foldl (fun c p => applyContent eng p c) c := by
  induction ops with
  | nil => intro c a n; rfl
  | cons p rest ih =>
    intro c a n
    simp only [List.foldl_cons]
    have h := applyOp_fst eng p c a n
    rcases happ : applyOp eng p (c, a, n) with ⟨c', a', n'⟩
    rw [happ] at h
    rw [← h]
    exact ih c' a' n'

def seqExampleOps : List PatchOperation :=
  [{ type := .replace_lines, startLine := some 2, endLine := some 3,
     content := some "A\nB".data },
   { type := .insert_after, line := some 1, content := some "X".data }]

/-- C3: each patch operation acts on the cumulative text produced by the
earlier operations of the same request — the final text is the
left-to-right fold of the single-operation content transforms over the
initial content — and the scripted sequence
`[replace_lines(2,3,"A\nB"), insert_after(1,"X")]` on `"1\n2\n3\n4"`
produces exactly `"1\nX\nA\nB\n4"`. -/
theorem patches_apply_sequentially (eng : RegexEngine) (content : Str)
    (ops : List PatchOperation) :
    (runPatches eng content ops).1 =
      ops.foldl (fun c p => applyContent eng p c) content ∧
    runPatches noMatchEngine "1\n2\n3\n4".data seqExampleOps =
      ("1\nX\nA\nB\n4".data, 2, 3) :=
  ⟨runPatches_foldl_aux eng ops content 0 0, rfl⟩

/-! ## C8: hierarchical tag matching -/

theorem normalizeSearchTag_no_hash (X : Str) (hX : strStarts X ['#'] = false) :
    normalizeSearchTag X = jsToLower X := by
  unfold normalizeSearchTag
  split
  · simp [strStarts, List.isPrefixOf] at hX
  · rfl

/-- C8: a search tag `X` (written without the optional leading `#`) matches
a document tag `Y` exactly when, compared case-insensitively, `Y` equals
`X` or `Y` starts with `X` followed by `/`; in particular `project`
matches `project/frontend` but not `projectx`. -/
theorem tag_match_characterization (X Y : Str)
    (hX : strStarts X ['#'] = false) :
    (tagMatches X Y = true ↔
      (jsToLower Y = jsToLower X ∨
       strStarts (jsToLower Y) (jsToLower X ++ ['/']) = true)) ∧
    tagMatches "project".data "project/frontend".data = true ∧
    tagMatches "project".data "projectx".data = false := by
  refine ⟨?_, by decide, by decide⟩
  unfold tagMatches
  rw [normalizeSearchTag_no_hash X hX]
  simp

theorem tag_match_characterization_witness :
    tagMatches "project".data "project/frontend".data = true ∧
    tagMatches "project".data "projectx".data = false :=
  (tag_match_characterization "project".data "project/frontend".data
    (by decide)).2

/-! ## C4: frontmatter round-trip. String-level helper lemmas. -/

theorem jsTrim_cons_ws (c : Char) (h : jsIsWs c = true) (l : Str) :
    jsTrim (c :: l) = jsTrim l := by
  simp [jsTrim, List.dropWhile_cons, h]

theorem jsTrim_noop (l : Str)
    (h1 : ∀ c, l.head? = some c → jsIsWs c = false)
    (h2 : ∀ c, l.getLast? = some c → jsIsWs c = false) :
    jsTrim l = l := by
  unfold jsTrim
  have e1 : l.dropWhile jsIsWs = l := by
    cases l with
    | nil => rfl
    | cons a t => simp [List.dropWhile_cons, h1 a rfl]
  rw [e1]
  have e2 : l.reverse.dropWhile jsIsWs = l.reverse := by
    cases hr : l.reverse with
    | nil => rfl
    | cons a t =>
      have : l.getLast? = some a := by
        rw [← List.head?_reverse, hr]; rfl
      simp [List.dropWhile_cons, h2 a this]
  rw [e2, List.reverse_reverse]

theorem jsSplit_ne_nil (c : Char) (l : Str) : jsSplit c l ≠ [] := by
  induction l with
  | nil => simp [jsSplit]
  | cons a t ih =>
    unfold jsSplit
    split
    · simp
    · split
      · simp
      · simp

theorem jsSplit_no_sep (c : Char) (l : Str) (h : ∀ x ∈ l, x ≠ c) :
    jsSplit c l = [l] := by
  induction l with
  | nil => rfl
  | cons a t ih =>
    have ha : (a == c) = false := by
      simp only [beq_eq_false_iff_ne]; exact h a (by simp)
    unfold jsSplit
    rw [ha]
    simp only [Bool.false_eq_true, if_false]
    rw [ih (fun x hx => h x (by simp [hx]))]

theorem jsSplit_append_sep (c : Char) (a rest : Str) (h : ∀ x ∈ a, x ≠ c) :
    jsSplit c (a ++ c :: rest) = a :: jsSplit c rest := by
  induction a with
  | nil => simp [jsSplit]
  | cons x t ih =>
    have hx : (x == c) = false := by
      simp only [beq_eq_false_iff_ne]; exact h x (by simp)
    conv_lhs => simp only [List.cons_append, jsSplit]
    rw [hx]
    simp only [Bool.false_eq_true, if_false, List.append_eq]
    rw [ih (fun y hy => h y (by simp [hy]))]

theorem split_join_lines (lines : List Str) (hne : lines ≠ [])
    (h : ∀ l ∈ lines, ∀ x ∈ l, x ≠ '\n') :
    jsSplit '\n' (jsJoin '\n' lines ++ ['\n']) = lines ++ [[]] := by
  induction lines with
  | nil => exact absurd rfl hne
  | cons a t ih =>
    cases t with
    | nil =>
      show jsSplit '\n' (a ++ '\n' :: []) = [a, []]
      rw [jsSplit_append_sep '\n' a [] (h a (by simp))]
      rfl
    | cons b u =>
      show jsSplit '\n' ((a ++ '\n' :: jsJoin '\n' (b :: u)) ++ ['\n']) = _
      rw [List.append_assoc, List.cons_append,
          jsSplit_append_sep '\n' a _ (h a (by simp)),
          ih (by simp) (fun l hl => h l (by simp [hl]))]
      rfl

theorem jsIndexOfChar_first (k : Str) (c : Char) (r : Str)
    (h : ∀ x ∈ k, x ≠ c) :
    jsIndexOfChar (k ++ c :: r) c = some k.length := by
  induction k with
  | nil => simp [jsIndexOfChar]
  | cons x t ih =>
    have hx : (x == c) = false := by
      simp only [beq_eq_false_iff_ne]; exact h x (by simp)
    unfold jsIndexOfChar
    simp only [List.cons_append]
    rw [hx]
    simp only [Bool.false_eq_true, if_false]
    rw [ih (fun y hy => h y (by simp [hy]))]
    rfl

theorem strStarts_single (s : Str) (c : Char) :
    strStarts s [c] = true ↔ s.head? = some c := by
  cases s with
  | nil => simp [strStarts, List.isPrefixOf]
  | cons a t =>
    simp only [strStarts, List.isPrefixOf, List.isPrefixOf_nil_left,
               Bool.and_true, List.head?_cons, Option.some_inj]
    exact ⟨fun h => (beq_iff_eq.mp h).symm, fun h => beq_iff_eq.mpr h.symm⟩

theorem strEnds_concat (l : Str) (c : Char) :
    strEnds (l ++ [c]) [c] = true := by
  simp [strEnds, List.isPrefixOf]

theorem strContains_single (s : Str) (c : Char) :
    strContains s [c] = true ↔ c ∈ s := by
  induction s with
  | nil => simp [strContains, jsIndexOf]
  | cons a t ih =>
    unfold strContains jsIndexOf
    by_cases hp : [c].isPrefixOf (a :: t)
    · simp only [hp, if_true, Option.isSome_some, true_iff]
      have : c = a := by
        simpa [List.isPrefixOf] using hp
      simp [this]
    · simp only [hp, Bool.false_eq_true, if_false]
      have hca : ¬ c = a := by
        intro hh
        exact hp (by simp [List.isPrefixOf, hh])
      cases hidx : jsIndexOf t [c] with
      | none =>
        have ht : ¬ c ∈ t := by
          intro hm
          have := ih.mpr hm
          simp [strContains, hidx] at this
        simp [hidx, hca, ht]
      | some k =>
        have ht : c ∈ t := ih.mp (by simp [strContains, hidx])
        simp [hidx, ht]

/-! Digit-string lemmas for the integer round-trip. -/

theorem isDigitCh_ofNat (d : Nat) (hd : d < 10) :
    isDigitCh (Char.ofNat (48 + d)) = true := by
  interval_cases d <;> decide

theorem toNat_digit_ofNat (d : Nat) (hd : d < 10) :
    (Char.ofNat (48 + d)).toNat = 48 + d := by
  interval_cases d <;> decide

theorem natDigitsAux_all_digits (fuel n : Nat) :
    ∀ c ∈ natDigitsAux fuel n, isDigitCh c = true := by
  induction fuel generalizing n with
  | zero => intro c hc; simp [natDigitsAux] at hc
  | succ fuel ih =>
    intro c hc
    unfold natDigitsAux at hc
    split at hc
    · rename_i hlt
      simp only [List.mem_singleton] at hc
      subst hc
      exact isDigitCh_ofNat n hlt
    · simp only [List.mem_append, List.mem_singleton] at hc
      rcases hc with hc | hc
      · exact ih (n / 10) c hc
      · subst hc
        exact isDigitCh_ofNat (n % 10) (Nat.mod_lt _ (by omega))

theorem natDigits_all_digits (n : Nat) :
    ∀ c ∈ natDigits n, isDigitCh c = true :=
  natDigitsAux_all_digits (n + 1) n

theorem natDigitsAux_ne_nil (fuel n : Nat) (hf : 0 < fuel) :
    natDigitsAux fuel n ≠ [] := by
  cases fuel with
  | zero => omega
  | succ f =>
    unfold natDigitsAux
    split
    · simp
    · simp

theorem natDigits_ne_nil (n : Nat) : natDigits n ≠ [] :=
  natDigitsAux_ne_nil (n + 1) n (by omega)

theorem digitsVal_append_digit (a : Str) (c : Char) :
    digitsVal (a ++ [c]) = digitsVal a * 10 + (c.toNat - 48) := by
  simp [digitsVal, List.foldl_append]

theorem digitsVal_natDigitsAux (fuel n : Nat) (h : n < 10 ^ fuel) :
    digitsVal (natDigitsAux fuel n) = n := by
  induction fuel generalizing n with
  | zero => simp at h; simp [h, natDigitsAux, digitsVal]
  | succ fuel ih =>
    unfold natDigitsAux
    split
    · rename_i hlt
      show digitsVal [Char.ofNat (48 + n)] = n
      simp [digitsVal, toNat_digit_ofNat n hlt]
    · rename_i hge
      rw [digitsVal_append_digit,
          ih (n / 10) (by
            rw [Nat.div_lt_iff_lt_mul (by omega)]
            calc n < 10 ^ (fuel + 1) := h
              _ = 10 ^ fuel * 10 := by ring),
          toNat_digit_ofNat (n % 10) (Nat.mod_lt _ (by omega))]
      omega

theorem digitsVal_natDigits (n : Nat) : digitsVal (natDigits n) = n :=
  digitsVal_natDigitsAux (n + 1) n
    (lt_of_lt_of_le (Nat.lt_pow_self (by omega) n) (Nat.pow_le_pow_right (by omega) (by omega)))

theorem digit_not_ws (c : Char) (h : isDigitCh c = true) : jsIsWs c = false := by
  simp only [isDigitCh, Bool.and_eq_true, decide_eq_true_eq] at h
  simp only [jsIsWs, Bool.or_eq_false_iff, beq_eq_false_iff_ne]
  have h1 := h.1
  have h2 := h.2
  refine ⟨⟨⟨⟨⟨?_, ?_⟩, ?_⟩, ?_⟩, ?_⟩, ?_⟩ <;>
    (intro he; subst he; revert h1 h2 <;> decide)

/-! The "safe" shapes of the amended round-trip claim. -/

/-- Characters a safe frontmatter key consists of. -/
def plainKeyCh (c : Char) : Bool := c.isAlphanum || c == '_'

/-- Characters a safe scalar string consists of. -/
def plainStrCh (c : Char) : Bool :=
  c.isAlphanum || c == '_' || c == '-' || c == ' '

def safeKey (k : Str) : Bool := !k.isEmpty && k.all plainKeyCh

/-- A string scalar the codec round-trips verbatim: nonempty plain text,
not space-padded, not spellable as a boolean/null/number lexeme. -/
def safeStr (s : Str) : Bool :=
  !s.isEmpty && s.all plainStrCh &&
  s.head? != some ' ' && s.getLast? != some ' ' &&
  s != "true".data && s != "false".data &&
  s != "null".data && s != ['~'] && !numShaped s

/-- Inline-list items the codec round-trips: safe strings and integers. -/
def safeInline : YamlValue → Bool
  | .str s => safeStr s
  | .num q => q.den == 1
  | _ => false

/-- Values of the amended round-trip claim: boolean, null, integer, safe
string, or a nonempty inline list of safe strings/integers. -/
def safeVal : YamlValue → Bool
  | .str s => safeStr s
  | .num q => q.den == 1
  | .bool _ => true
  | .null => true
  | .list items => !items.isEmpty && items.all safeInline
  | .obj _ => false

def keysDistinct : List Str → Bool
  | [] => true
  | k :: ks => !ks.contains k && keysDistinct ks

/-- The mappings of the amended round-trip claim. -/
def safeMap (m : List (Str × YamlValue)) : Bool :=
  keysDistinct (m.map Prod.fst) &&
  m.all (fun e => safeKey e.1 && safeVal e.2)

/-! Facts about specific characters and shapes. -/

theorem plainStrCh_not_ws (c : Char) (h : plainStrCh c = true) (hs : c ≠ ' ') :
    jsIsWs c = false := by
  cases hw : jsIsWs c with
  | false => rfl
  | true =>
    exfalso
    simp only [jsIsWs, Bool.or_eq_true, beq_iff_eq] at hw
    rcases hw with ((((hc | hc) | hc) | hc) | hc) | hc
    · exact hs hc
    all_goals (subst hc; revert h; decide)

theorem plainKeyCh_not_ws (c : Char) (h : plainKeyCh c = true) :
    jsIsWs c = false := by
  cases hw : jsIsWs c with
  | false => rfl
  | true =>
    exfalso
    simp only [jsIsWs, Bool.or_eq_true, beq_iff_eq] at hw
    rcases hw with ((((hc | hc) | hc) | hc) | hc) | hc
    all_goals (subst hc; revert h; decide)

theorem all_not_mem_of_ch_false (s : Str) (p : Char → Bool)
    (hall : s.all p = true) (c : Char) (hc : p c = false) : c ∉ s := by
  intro hm
  have := (List.all_eq_true.mp hall) c hm
  rw [hc] at this
  exact Bool.false_ne_true this

theorem strStarts_false_of_all (s : Str) (p : Char → Bool)
    (hall : s.all p = true) (c : Char) (hc : p c = false) :
    strStarts s [c] = false := by
  cases hs : strStarts s [c] with
  | false => rfl
  | true =>
    exfalso
    have hh := (strStarts_single s c).mp hs
    have hm : c ∈ s := List.mem_of_mem_head? hh
    exact all_not_mem_of_ch_false s p hall c hc hm

theorem strContains_false_of_all (s : Str) (p : Char → Bool)
    (hall : s.all p = true) (c : Char) (hc : p c = false) :
    strContains s [c] = false := by
  cases hs : strContains s [c] with
  | false => rfl
  | true =>
    exact absurd ((strContains_single s c).mp hs)
      (all_not_mem_of_ch_false s p hall c hc)

theorem ne_of_head_ne (s t : Str) (hh : s.head? ≠ t.head?) : s ≠ t := by
  intro he; exact hh (by rw [he])

/-! Integer scalar round-trip. -/

theorem natDigits_head_digit (n : Nat) :
    ∀ c, (natDigits n).head? = some c → isDigitCh c = true := by
  intro c hc
  exact natDigits_all_digits n c (List.mem_of_mem_head? hc)

theorem digit_ne (c x : Char) (h : isDigitCh c = true) (hx : isDigitCh x = false) :
    c ≠ x := by
  intro he; subst he; simp [h] at hx

theorem stripMinus_of_head_ne (s : Str) (h : s.head? ≠ some '-') :
    stripMinus s = s := by
  unfold stripMinus
  split
  · rename_i r
    exact absurd rfl h
  · rfl

theorem natDigits_head_ne_minus (n : Nat) : (natDigits n).head? ≠ some '-' := by
  intro hc
  have := natDigits_head_digit n '-' hc
  revert this; decide

theorem takeWhile_all (s : Str) (p : Char → Bool) (h : ∀ c ∈ s, p c = true) :
    s.takeWhile p = s :=
  List.takeWhile_eq_self_iff.mpr h

theorem numShaped_natDigits (n : Nat) : numShaped (natDigits n) = true := by
  simp only [numShaped]
  rw [stripMinus_of_head_ne _ (natDigits_head_ne_minus n),
      takeWhile_all _ _ (natDigits_all_digits n)]
  simp [natDigits_ne_nil n]

theorem strStarts_natDigits_minus (n : Nat) :
    strStarts (natDigits n) ['-'] = false := by
  cases hs : strStarts (natDigits n) ['-'] with
  | false => rfl
  | true => exact absurd ((strStarts_single _ _).mp hs) (natDigits_head_ne_minus n)

theorem numShaped_intToStr (i : Int) : numShaped (intToStr i) = true := by
  unfold intToStr
  split
  · simp only [numShaped]
    rw [show stripMinus ('-' :: natDigits i.natAbs) = natDigits i.natAbs from rfl,
        takeWhile_all _ _ (natDigits_all_digits i.natAbs)]
    simp [natDigits_ne_nil i.natAbs]
  · exact numShaped_natDigits i.natAbs

theorem numValue_natDigits (n : Nat) : numValue (natDigits n) = (n : Rat) := by
  simp only [numValue]
  rw [strStarts_natDigits_minus n,
      stripMinus_of_head_ne _ (natDigits_head_ne_minus n),
      takeWhile_all _ _ (natDigits_all_digits n)]
  simp only [Bool.false_eq_true, if_false, List.drop_length, digitsVal_natDigits]
  push_cast
  ring

theorem numValue_intToStr (i : Int) : numValue (intToStr i) = (i : Rat) := by
  unfold intToStr
  split
  · rename_i hneg
    simp only [numValue]
    have hstart : strStarts ('-' :: natDigits i.natAbs) ['-'] = true := by
      simp [strStarts, List.isPrefixOf]
    rw [hstart,
        show stripMinus ('-' :: natDigits i.natAbs) = natDigits i.natAbs from rfl,
        takeWhile_all _ _ (natDigits_all_digits i.natAbs)]
    simp only [if_true, List.drop_length, digitsVal_natDigits]
    have hi : (-1 : Int) * (i.natAbs : Int) = i := by omega
    have h2 := congrArg (fun z : Int => (z : Rat)) hi
    simpa using h2
  · rename_i hpos
    rw [numValue_natDigits]
    have hi : ((i.natAbs : Nat) : Int) = i := Int.natAbs_of_nonneg (by omega)
    rw [show ((i.natAbs : Nat) : Rat) = (((i.natAbs : Nat) : Int) : Rat) from
          (Int.cast_natCast _).symm,
        hi]

theorem strStarts_false_of_head (s : Str) (c : Char) (h : s.head? ≠ some c) :
    strStarts s [c] = false := by
  cases hs : strStarts s [c] with
  | false => rfl
  | true => exact absurd ((strStarts_single s c).mp hs) h

theorem isEmpty_false_ne_nil (s : Str) (h : s.isEmpty = false) : s ≠ [] := by
  cases s with
  | nil => simp at h
  | cons a t => simp

theorem intToStr_head (i : Int) :
    ∀ c, (intToStr i).head? = some c → (c = '-' ∨ isDigitCh c = true) := by
  intro c hc
  unfold intToStr at hc
  split at hc
  · simp only [List.head?_cons, Option.some_inj] at hc
    exact Or.inl hc.symm
  · exact Or.inr (natDigits_head_digit i.natAbs c hc)

theorem intToStr_head_not (i : Int) (c : Char) (hm : c ≠ '-')
    (hd : isDigitCh c = false) : (intToStr i).head? ≠ some c := by
  intro hc
  rcases intToStr_head i c hc with h | h
  · exact hm h
  · rw [hd] at h; exact Bool.false_ne_true h

theorem intToStr_ne_of_head (i : Int) (t : Str) (c : Char)
    (ht : t.head? = some c) (hm : c ≠ '-') (hd : isDigitCh c = false) :
    intToStr i ≠ t := by
  intro he
  exact intToStr_head_not i c hm hd (by rw [he, ht])

theorem parseValue_intToStr (i : Int) :
    parseValue (intToStr i) = .num (i : Rat) := by
  have hdq : strStarts (intToStr i) [dquoteCh] = false :=
    strStarts_false_of_head _ _ (intToStr_head_not i dquoteCh (by decide) (by decide))
  have hsq : strStarts (intToStr i) [squoteCh] = false :=
    strStarts_false_of_head _ _ (intToStr_head_not i squoteCh (by decide) (by decide))
  have ht : (intToStr i == "true".data) = false :=
    beq_eq_false_iff_ne.mpr (intToStr_ne_of_head i _ 't' rfl (by decide) (by decide))
  have hf : (intToStr i == "false".data) = false :=
    beq_eq_false_iff_ne.mpr (intToStr_ne_of_head i _ 'f' rfl (by decide) (by decide))
  have hn : (intToStr i == "null".data) = false :=
    beq_eq_false_iff_ne.mpr (intToStr_ne_of_head i _ 'n' rfl (by decide) (by decide))
  have htl : (intToStr i == ['~']) = false :=
    beq_eq_false_iff_ne.mpr (intToStr_ne_of_head i _ '~' rfl (by decide) (by decide))
  simp only [parseValue, hdq, hsq, ht, hf, hn, htl, numShaped_intToStr i,
    Bool.false_and, Bool.or_self, Bool.false_eq_true, if_false, if_true,
    numValue_intToStr i]

theorem safeStr_parts (s : Str) (h : safeStr s = true) :
    s.isEmpty = false ∧ s.all plainStrCh = true ∧
    s.head? ≠ some ' ' ∧ s.getLast? ≠ some ' ' ∧
    s ≠ "true".data ∧ s ≠ "false".data ∧ s ≠ "null".data ∧ s ≠ ['~'] ∧
    numShaped s = false := by
  simp only [safeStr, Bool.and_eq_true, bne_iff_ne, ne_eq, Bool.not_eq_true'] at h
  tauto

theorem parseValue_safeStr (s : Str) (h : safeStr s = true) :
    parseValue s = .str s := by
  obtain ⟨h1, h2, h3, h4, h5, h6, h7, h8, h9⟩ := safeStr_parts s h
  have hdq : strStarts s [dquoteCh] = false :=
    strStarts_false_of_all s plainStrCh h2 dquoteCh (by decide)
  have hsq : strStarts s [squoteCh] = false :=
    strStarts_false_of_all s plainStrCh h2 squoteCh (by decide)
  simp only [parseValue, hdq, hsq, beq_eq_false_iff_ne.mpr h5,
    beq_eq_false_iff_ne.mpr h6, beq_eq_false_iff_ne.mpr h7,
    beq_eq_false_iff_ne.mpr h8, h9,
    Bool.false_and, Bool.or_self, Bool.false_eq_true, if_false, ite_self]

theorem parseValue_nullLit : parseValue "null".data = .null := rfl

theorem parseValue_true : parseValue "true".data = .bool true := rfl

theorem parseValue_false : parseValue "false".data = .bool false := rfl

/-! The single serialized line a safe entry produces. -/

/-- The value part of a safe entry's serialized line. -/
def valStr : YamlValue → Str
  | .list items => '[' :: (jsJoinSep ", ".data (items.map inlineItem) ++ [']'])
  | v => serializeValue v

/-- The serialized line of a safe entry at indent 0. -/
def lineOf (k : Str) (v : YamlValue) : Str := k ++ ':' :: ' ' :: valStr v

theorem safeInline_isStrOrNum (v : YamlValue) (h : safeInline v = true) :
    isStrOrNum v = true := by
  cases v <;> simp_all [safeInline, isStrOrNum]

theorem entryPush_safe (k : Str) (v : YamlValue) (hv : safeVal v = true) :
    entryPush k v 0 = [lineOf k v] := by
  cases v with
  | null => simp [entryPush, lineOf, valStr, serializeValue, indentStr]
  | bool b => simp [entryPush, lineOf, valStr, indentStr]
  | num q => simp [entryPush, lineOf, valStr, indentStr]
  | str s => simp [entryPush, lineOf, valStr, indentStr]
  | obj e => simp [safeVal] at hv
  | list items =>
    cases items with
    | nil => simp [safeVal] at hv
    | cons i is =>
      have hall : (i :: is).all isStrOrNum = true := by
        simp only [safeVal, Bool.and_eq_true] at hv
        exact List.all_eq_true.mpr fun x hx =>
          safeInline_isStrOrNum x ((List.all_eq_true.mp hv.2) x hx)
      simp only [entryPush, hall, if_true, indentStr]
      simp [lineOf, valStr]

theorem take_len_append (a b : Str) : (a ++ b).take a.length = a := by
  induction a with
  | nil => rfl
  | cons x t ih => simp [ih]

theorem drop_len_append (a b : Str) : (a ++ b).drop a.length = b := by
  induction a with
  | nil => rfl
  | cons x t ih => simp [ih]

theorem head?_append_ne_nil (a b : Str) (h : a ≠ []) :
    (a ++ b).head? = a.head? := by
  cases a with
  | nil => exact absurd rfl h
  | cons x t => rfl

theorem mem_jsJoinSep (sep : Str) (ls : List Str) (c : Char)
    (h : c ∈ jsJoinSep sep ls) : c ∈ sep ∨ ∃ l ∈ ls, c ∈ l := by
  induction ls with
  | nil => simp [jsJoinSep] at h
  | cons a t ih =>
    cases t with
    | nil =>
      simp only [jsJoinSep] at h
      exact Or.inr ⟨a, by simp, h⟩
    | cons b u =>
      simp only [jsJoinSep, List.mem_append] at h
      rcases h with (h | h) | h
      · exact Or.inr ⟨a, by simp, h⟩
      · exact Or.inl h
      · rcases ih h with h' | ⟨l, hl, hcl⟩
        · exact Or.inl h'
        · exact Or.inr ⟨l, by simp [hl], hcl⟩

theorem mem_intToStr (i : Int) (c : Char) (h : c ∈ intToStr i) :
    c = '-' ∨ isDigitCh c = true := by
  unfold intToStr at h
  split at h
  · rcases List.mem_cons.mp h with h | h
    · exact Or.inl h
    · exact Or.inr (natDigits_all_digits _ _ h)
  · exact Or.inr (natDigits_all_digits _ _ h)

theorem intToStr_ne_nil (i : Int) : intToStr i ≠ [] := by
  unfold intToStr
  split
  · simp
  · exact natDigits_ne_nil _

theorem intToStr_last_digit (i : Int) :
    ∀ c, (intToStr i).getLast? = some c → isDigitCh c = true := by
  intro c hc
  unfold intToStr at hc
  split at hc
  · have hne := natDigits_ne_nil i.natAbs
    rw [show ('-' :: natDigits i.natAbs) = ['-'] ++ natDigits i.natAbs from rfl,
        List.getLast?_append_of_ne_nil _ hne] at hc
    exact natDigits_all_digits _ _ (List.mem_of_mem_getLast? hc)
  · exact natDigits_all_digits _ _ (List.mem_of_mem_getLast? hc)

theorem intToStr_head_not_ws (i : Int) :
    ∀ c, (intToStr i).head? = some c → jsIsWs c = false := by
  intro c hc
  rcases intToStr_head i c hc with h | h
  · subst h; decide
  · exact digit_not_ws c h

theorem isDigitCh_plain (c : Char) (h : isDigitCh c = true) :
    plainStrCh c = true := by
  have hd : c.isDigit = true := by
    simpa [Char.isDigit, isDigitCh] using h
  simp [plainStrCh, Char.isAlphanum, hd]

theorem serializeValue_safeStr (s : Str) (h : safeStr s = true) :
    serializeValue (.str s) = s := by
  obtain ⟨-, h2, -⟩ := safeStr_parts s h
  simp only [serializeValue,
    strContains_false_of_all s plainStrCh h2 ':' (by decide),
    strContains_false_of_all s plainStrCh h2 '#' (by decide),
    strContains_false_of_all s plainStrCh h2 '\n' (by decide),
    Bool.or_self, Bool.false_eq_true, if_false]

theorem inlineItem_str (s : Str) (h : safeStr s = true) :
    inlineItem (.str s) = s := by
  obtain ⟨-, h2, -⟩ := safeStr_parts s h
  simp only [inlineItem,
    strContains_false_of_all s plainStrCh h2 ',' (by decide),
    strContains_false_of_all s plainStrCh h2 ':' (by decide),
    Bool.or_self, Bool.false_eq_true, if_false]

theorem ratToStr_int (q : Rat) (hq : q.den = 1) : ratToStr q = intToStr q.num := by
  simp [ratToStr, hq]

theorem inlineItem_int (q : Rat) (hq : q.den = 1) :
    inlineItem (.num q) = intToStr q.num := by
  simp only [inlineItem]
  exact ratToStr_int q hq

theorem safeStr_trim_noop (s : Str) (h : safeStr s = true) : jsTrim s = s := by
  obtain ⟨-, h2, h3, h4, -⟩ := safeStr_parts s h
  refine jsTrim_noop s ?_ ?_
  · intro c hc
    refine plainStrCh_not_ws c ((List.all_eq_true.mp h2) c (List.mem_of_mem_head? hc)) ?_
    intro he; subst he; exact h3 hc
  · intro c hc
    refine plainStrCh_not_ws c ((List.all_eq_true.mp h2) c (List.mem_of_mem_getLast? hc)) ?_
    intro he; subst he; exact h4 hc

theorem intToStr_trim_noop (i : Int) : jsTrim (intToStr i) = intToStr i := by
  refine jsTrim_noop _ (intToStr_head_not_ws i) ?_
  intro c hc
  exact digit_not_ws c (intToStr_last_digit i c hc)

theorem inlineItem_roundtrip (v : YamlValue) (h : safeInline v = true) :
    parseValue (jsTrim (inlineItem v)) = v := by
  cases v with
  | str s =>
    have hs : safeStr s = true := by simpa [safeInline] using h
    rw [inlineItem_str s hs, safeStr_trim_noop s hs]
    exact parseValue_safeStr s hs
  | num q =>
    have hq : q.den = 1 := by simpa [safeInline] using h
    rw [inlineItem_int q hq, intToStr_trim_noop, parseValue_intToStr]
    rw [(Rat.den_eq_one_iff q).mp hq]
  | bool b => simp [safeInline] at h
  | null => simp [safeInline] at h
  | list l => simp [safeInline] at h
  | obj e => simp [safeInline] at h

theorem inlineItem_chars (v : YamlValue) (h : safeInline v = true) :
    ∀ c ∈ inlineItem v, plainStrCh c = true := by
  cases v with
  | str s =>
    have hs : safeStr s = true := by simpa [safeInline] using h
    obtain ⟨-, h2, -⟩ := safeStr_parts s hs
    rw [inlineItem_str s hs]
    exact fun c hc => (List.all_eq_true.mp h2) c hc
  | num q =>
    have hq : q.den = 1 := by simpa [safeInline] using h
    rw [inlineItem_int q hq]
    intro c hc
    rcases mem_intToStr _ c hc with h' | h'
    · subst h'; decide
    · exact isDigitCh_plain c h'
  | bool b => simp [safeInline] at h
  | null => simp [safeInline] at h
  | list l => simp [safeInline] at h
  | obj e => simp [safeInline] at h

theorem split_items (items : List YamlValue) (h : items.all safeInline = true)
    (hne : items ≠ []) :
    (jsSplit ',' (jsJoinSep ", ".data (items.map inlineItem))).map
      (fun s => parseValue (jsTrim s)) = items := by
  induction items with
  | nil => exact absurd rfl hne
  | cons i t ih =>
    have hi : safeInline i = true := (List.all_eq_true.mp h) i (by simp)
    have hchars := inlineItem_chars i hi
    have hnoc : ∀ x ∈ inlineItem i, x ≠ ',' := by
      intro x hx he
      subst he
      have := hchars ',' hx
      revert this; decide
    cases t with
    | nil =>
      simp only [List.map_cons, List.map_nil, jsJoinSep]
      rw [jsSplit_no_sep ',' _ hnoc]
      simp [inlineItem_roundtrip i hi]
    | cons j u =>
      have hrest : (j :: u).all safeInline = true := by
        rw [List.all_eq_true] at h ⊢
        exact fun x hx => h x (by simp [List.mem_cons.mp hx])
      have ihr := ih hrest (by simp)
      simp only [List.map_cons] at ihr ⊢
      rw [show jsJoinSep ", ".data (inlineItem i :: inlineItem j :: u.map inlineItem) =
            inlineItem i ++ ',' ::
              (' ' :: jsJoinSep ", ".data (inlineItem j :: u.map inlineItem)) from by
        simp [jsJoinSep]]
      rw [jsSplit_append_sep ',' _ _ hnoc]
      rcases hp : jsSplit ',' (jsJoinSep ", ".data (inlineItem j :: u.map inlineItem))
        with - | ⟨f, fs⟩
      · exact absurd hp (jsSplit_ne_nil _ _)
      · rw [hp] at ihr
        have hsp : jsSplit ','
            (' ' :: jsJoinSep ", ".data (inlineItem j :: u.map inlineItem)) =
            (' ' :: f) :: fs := by
          conv_lhs => simp only [jsSplit]
          rw [hp]
          simp
        rw [hsp]
        simp only [List.map_cons] at ihr ⊢
        rw [inlineItem_roundtrip i hi]
        rw [jsTrim_cons_ws ' ' (by decide) f]
        rw [show parseValue (jsTrim f) :: fs.map (fun s => parseValue (jsTrim s)) =
              (f :: fs).map (fun s => parseValue (jsTrim s)) from rfl, ← hp] 
        congr 1
        rw [hp]
        exact ihr

theorem safeKey_parts (k : Str) (h : safeKey k = true) :
    k ≠ [] ∧ k.all plainKeyCh = true := by
  simp only [safeKey, Bool.and_eq_true, Bool.not_eq_true'] at h
  exact ⟨isEmpty_false_ne_nil k h.1, h.2⟩

theorem jsTrim_key (k : Str) (h : safeKey k = true) : jsTrim k = k := by
  obtain ⟨h1, h2⟩ := safeKey_parts k h
  refine jsTrim_noop k ?_ ?_
  · intro c hc
    exact plainKeyCh_not_ws c ((List.all_eq_true.mp h2) c (List.mem_of_mem_head? hc))
  · intro c hc
    exact plainKeyCh_not_ws c ((List.all_eq_true.mp h2) c (List.mem_of_mem_getLast? hc))

theorem parseLine_keyline (acc : List (Str × YamlValue)) (ck k V : Str)
    (hk : safeKey k = true)
    (hVne : V ≠ [])
    (hVhead : ∀ c, V.head? = some c → jsIsWs c = false)
    (hVlast : ∀ c, V.getLast? = some c → jsIsWs c = false)
    (hVpipe : V ≠ ['|']) (hVgt : V ≠ ['>']) :
    parseLine ⟨acc, ck, false, []⟩ (k ++ ':' :: ' ' :: V) =
      (if strStarts V ['['] && strEnds V [']'] then
        ⟨objSet acc k
          (.list ((jsSplit ',' V.tail.dropLast).map (fun s => parseValue (jsTrim s)))),
         ck, false, []⟩
      else ⟨objSet acc k (parseValue V), ck, false, []⟩) := by
  obtain ⟨hkne, hkall⟩ := safeKey_parts k hk
  have hknc : ∀ x ∈ k, x ≠ ':' := by
    intro x hx he
    subst he
    have := (List.all_eq_true.mp hkall) ':' hx
    revert this; decide
  have htrim : jsTrim (k ++ ':' :: ' ' :: V) = k ++ ':' :: ' ' :: V := by
    refine jsTrim_noop _ ?_ ?_
    · intro c hc
      rw [head?_append_ne_nil _ _ hkne] at hc
      exact plainKeyCh_not_ws c
        ((List.all_eq_true.mp hkall) c (List.mem_of_mem_head? hc))
    · intro c hc
      rw [show k ++ ':' :: ' ' :: V = (k ++ [':', ' ']) ++ V from by simp,
          List.getLast?_append_of_ne_nil _ hVne] at hc
      exact hVlast c hc
  have hempty : (k ++ ':' :: ' ' :: V).isEmpty = false := by
    cases k with
    | nil => exact absurd rfl hkne
    | cons a t => rfl
  have hidx : jsIndexOfChar (k ++ ':' :: ' ' :: V) ':' = some k.length :=
    jsIndexOfChar_first k ':' (' ' :: V) hknc
  have hkey : jsTrim ((k ++ ':' :: ' ' :: V).take k.length) = k := by
    rw [show ':' :: ' ' :: V = [':'] ++ (' ' :: V) from rfl, ← List.append_assoc]
    rw [show k.length = (k).length from rfl]
    rw [show ((k ++ [':']) ++ ' ' :: V).take k.length =
      (k ++ ([':'] ++ ' ' :: V)).take k.length from by rw [List.append_assoc]]
    rw [take_len_append k ([':'] ++ ' ' :: V)]
    exact jsTrim_key k hk
  have hval : jsTrim ((k ++ ':' :: ' ' :: V).drop (k.length + 1)) = V := by
    rw [show k ++ ':' :: ' ' :: V = (k ++ [':']) ++ (' ' :: V) from by simp,
        show k.length + 1 = (k ++ [':']).length from by simp,
        drop_len_append (k ++ [':']) (' ' :: V),
        jsTrim_cons_ws ' ' (by decide) V]
    exact jsTrim_noop V hVhead hVlast
  have hVemp : V.isEmpty = false := by
    cases V with
    | nil => exact absurd rfl hVne
    | cons a t => rfl
  have hVp : (V == ['|']) = false := beq_eq_false_iff_ne.mpr hVpipe
  have hVg : (V == ['>']) = false := beq_eq_false_iff_ne.mpr hVgt
  simp only [parseLine, htrim, hempty, hidx, hkey, hval, hVemp, hVp, hVg,
    Bool.and_false, Bool.false_and, Bool.false_eq_true, if_false,
    Bool.or_self]
  have hklen : 0 < k.length := List.length_pos.mpr hkne
  simp [hklen]

theorem ne_single_of_all (s : Str) (p : Char → Bool) (hall : s.all p = true)
    (c : Char) (hc : p c = false) : s ≠ [c] := by
  intro he
  subst he
  simp only [List.all_cons, List.all_nil, Bool.and_true] at hall
  rw [hc] at hall
  exact Bool.false_ne_true hall

theorem ne_single_of_head (s : Str) (c : Char) (h : s.head? ≠ some c) :
    s ≠ [c] := by
  intro he; rw [he] at h; exact h rfl

theorem dropLast_concat' (l : Str) (a : Char) : (l ++ [a]).dropLast = l := by
  simp

theorem parseLine_entry (acc : List (Str × YamlValue)) (ck k : Str)
    (v : YamlValue) (hk : safeKey k = true) (hv : safeVal v = true) :
    parseLine ⟨acc, ck, false, []⟩ (lineOf k v) = ⟨objSet acc k v, ck, false, []⟩ := by
  cases v with
  | str s =>
    have hs : safeStr s = true := by simpa [safeVal] using hv
    obtain ⟨h1, h2, h3, h4, -⟩ := safeStr_parts s hs
    have hV : valStr (.str s) = s := serializeValue_safeStr s hs
    rw [lineOf, hV, parseLine_keyline acc ck k s hk (isEmpty_false_ne_nil s h1)
      (fun c hc => plainStrCh_not_ws c
        ((List.all_eq_true.mp h2) c (List.mem_of_mem_head? hc))
        (fun he => h3 (he ▸ hc)))
      (fun c hc => plainStrCh_not_ws c
        ((List.all_eq_true.mp h2) c (List.mem_of_mem_getLast? hc))
        (fun he => h4 (he ▸ hc)))
      (ne_single_of_all s plainStrCh h2 '|' (by decide))
      (ne_single_of_all s plainStrCh h2 '>' (by decide))]
    rw [strStarts_false_of_all s plainStrCh h2 '[' (by decide)]
    simp only [Bool.false_and, Bool.false_eq_true, if_false]
    rw [parseValue_safeStr s hs]
  | num q =>
    have hq : q.den = 1 := by simpa [safeVal] using hv
    have hV : valStr (.num q) = intToStr q.num := by
      simp only [valStr]
      exact ratToStr_int q hq
    have hbr : strStarts (intToStr q.num) ['['] = false :=
      strStarts_false_of_head _ _ (intToStr_head_not q.num '[' (by decide) (by decide))
    rw [lineOf, hV, parseLine_keyline acc ck k _ hk (intToStr_ne_nil q.num)
      (intToStr_head_not_ws q.num)
      (fun c hc => digit_not_ws c (intToStr_last_digit q.num c hc))
      (ne_single_of_head _ _ (intToStr_head_not q.num '|' (by decide) (by decide)))
      (ne_single_of_head _ _ (intToStr_head_not q.num '>' (by decide) (by decide)))]
    rw [hbr]
    simp only [Bool.false_and, Bool.false_eq_true, if_false]
    rw [parseValue_intToStr q.num, (Rat.den_eq_one_iff q).mp hq]
  | bool b =>
    cases b with
    | true =>
      rw [lineOf, show valStr (.bool true) = "true".data from rfl,
        parseLine_keyline acc ck k _ hk (by decide)
          (by intro c hc; simp at hc; subst hc; decide)
          (by intro c hc; simp at hc; subst hc; decide)
          (by decide) (by decide)]
      simp [strStarts, List.isPrefixOf]
      rfl
    | false =>
      rw [lineOf, show valStr (.bool false) = "false".data from rfl,
        parseLine_keyline acc ck k _ hk (by decide)
          (by intro c hc; simp at hc; subst hc; decide)
          (by intro c hc; simp at hc; subst hc; decide)
          (by decide) (by decide)]
      simp [strStarts, List.isPrefixOf]
      rfl
  | null =>
    rw [lineOf, show valStr .null = "null".data from rfl,
      parseLine_keyline acc ck k _ hk (by decide)
        (by intro c hc; simp at hc; subst hc; decide)
        (by intro c hc; simp at hc; subst hc; decide)
        (by decide) (by decide)]
    simp [strStarts, List.isPrefixOf]
    rfl
  | obj e => simp [safeVal] at hv
  | list items =>
    have hine : items ≠ [] := by
      cases items with
      | nil => simp [safeVal] at hv
      | cons a t => simp
    have hiall : items.all safeInline = true := by
      simp only [safeVal, Bool.and_eq_true] at hv
      exact hv.2
    have hV : valStr (.list items) =
        '[' :: (jsJoinSep ", ".data (items.map inlineItem) ++ [']']) := rfl
    have hVform : valStr (.list items) =
        ('[' :: jsJoinSep ", ".data (items.map inlineItem)) ++ [']'] := by
      rw [hV]; rfl
    rw [lineOf, parseLine_keyline acc ck k _ hk (by rw [hV]; simp)
      (by intro c hc; rw [hV] at hc; simp at hc; subst hc; decide)
      (by
        intro c hc
        rw [hVform, List.getLast?_append_of_ne_nil _ (by simp)] at hc
        simp at hc; subst hc; decide)
      (by rw [hV]; intro he; simp at he)
      (by rw [hV]; intro he; simp at he)]
    have hstart : strStarts (valStr (.list items)) ['['] = true := by
      rw [hV]; simp [strStarts, List.isPrefixOf]
    have hend : strEnds (valStr (.list items)) [']'] = true := by
      rw [hVform]; exact strEnds_concat _ ']'
    rw [hstart, hend]
    simp only [Bool.and_self, if_true]
    have htail : (valStr (.list items)).tail.dropLast =
        jsJoinSep ", ".data (items.map inlineItem) := by
      rw [hV]
      simp only [List.tail_cons]
      exact dropLast_concat' _ ']'
    rw [htail, split_items items hiall hine]

theorem objSet_append (acc : List (Str × YamlValue)) (k : Str) (v : YamlValue)
    (h : ∀ e ∈ acc, e.1 ≠ k) : objSet acc k v = acc ++ [(k, v)] := by
  induction acc with
  | nil => rfl
  | cons e t ih =>
    have he : (e.1 == k) = false := beq_eq_false_iff_ne.mpr (h e (by simp))
    obtain ⟨k', v'⟩ := e
    simp only [objSet]
    rw [show (k' == k) = false from he]
    simp only [Bool.false_eq_true, if_false, List.cons_append, List.cons.injEq,
      true_and]
    exact ih (fun e' he' => h e' (by simp [he']))

theorem lineOf_no_nl (k : Str) (v : YamlValue)
    (hk : safeKey k = true) (hv : safeVal v = true) :
    ∀ c ∈ lineOf k v, c ≠ '\n' := by
  intro c hc he
  subst he
  obtain ⟨hkne, hkall⟩ := safeKey_parts k hk
  simp only [lineOf, List.mem_append, List.mem_cons] at hc
  rcases hc with hc | hc | hc | hc
  · have := (List.all_eq_true.mp hkall) '\n' hc
    revert this; decide
  · exact absurd hc (by decide)
  · exact absurd hc (by decide)
  · -- newline inside the value part
    cases v with
    | str s =>
      have hs : safeStr s = true := by simpa [safeVal] using hv
      obtain ⟨-, h2, -⟩ := safeStr_parts s hs
      rw [show valStr (.str s) = s from serializeValue_safeStr s hs] at hc
      have := (List.all_eq_true.mp h2) '\n' hc
      revert this; decide
    | num q =>
      have hq : q.den = 1 := by simpa [safeVal] using hv
      rw [show valStr (.num q) = intToStr q.num from by
            simp only [valStr]; exact ratToStr_int q hq] at hc
      rcases mem_intToStr _ _ hc with h' | h'
      · exact absurd h' (by decide)
      · revert h'; decide
    | bool b => cases b <;> revert hc <;> decide
    | null => revert hc; decide
    | obj e => simp [safeVal] at hv
    | list items =>
      have hiall : items.all safeInline = true := by
        simp only [safeVal, Bool.and_eq_true] at hv
        exact hv.2
      rw [show valStr (.list items) =
            '[' :: (jsJoinSep ", ".data (items.map inlineItem) ++ [']']) from rfl] at hc
      simp only [List.mem_cons, List.mem_append] at hc
      rcases hc with hc | hc | hc
      · exact absurd hc (by decide)
      · rcases mem_jsJoinSep _ _ _ hc with hsep | ⟨l, hl, hcl⟩
        · revert hsep; decide
        · obtain ⟨item, hitem, rfl⟩ := List.mem_map.mp hl
          have := inlineItem_chars item
            ((List.all_eq_true.mp hiall) item hitem) '\n' hcl
          revert this; decide
      · exact absurd hc (by decide)

theorem parse_fold_lines (m : List (Str × YamlValue)) :
    ∀ (acc : List (Str × YamlValue)) (ck : Str),
    m.all (fun e => safeKey e.1 && safeVal e.2) = true →
    keysDistinct (m.map Prod.fst) = true →
    (∀ e ∈ m, ∀ a ∈ acc, a.1 ≠ e.1) →
    (m.map (fun e => lineOf e.1 e.2)).foldl parseLine ⟨acc, ck, false, []⟩ =
      ⟨acc ++ m, ck, false, []⟩ := by
  induction m with
  | nil => intro acc ck _ _ _; simp
  | cons e rest ih =>
    intro acc ck hsafe hdist hfresh
    obtain ⟨k, v⟩ := e
    have hks : safeKey k = true ∧ safeVal v = true := by
      have := (List.all_eq_true.mp hsafe) (k, v) (by simp)
      simpa [Bool.and_eq_true] using this
    simp only [List.map_cons, List.foldl_cons]
    rw [parseLine_entry acc ck k v hks.1 hks.2,
        objSet_append acc k v (fun a ha => hfresh (k, v) (by simp) a ha)]
    have hdist' : keysDistinct (rest.map Prod.fst) = true := by
      simp only [List.map_cons, keysDistinct, Bool.and_eq_true] at hdist
      exact hdist.2
    have hnotin : ((rest.map Prod.fst).contains k) = false := by
      simp only [List.map_cons, keysDistinct, Bool.and_eq_true,
        Bool.not_eq_true'] at hdist
      exact hdist.1
    have hsafe' : rest.all (fun e => safeKey e.1 && safeVal e.2) = true := by
      rw [List.all_eq_true] at hsafe ⊢
      exact fun x hx => hsafe x (by simp [hx])
    have hfresh' : ∀ e' ∈ rest, ∀ a ∈ acc ++ [(k, v)], a.1 ≠ e'.1 := by
      intro e' he' a ha
      rcases List.mem_append.mp ha with ha | ha
      · exact hfresh e' (by simp [he']) a ha
      · simp only [List.mem_singleton] at ha
        subst ha
        intro hke
        have : (rest.map Prod.fst).contains k = true := by
          rw [List.contains_eq_any_beq]
          rw [List.any_eq_true]
          exact ⟨e'.1, List.mem_map_of_mem Prod.fst he', beq_iff_eq.mpr hke⟩
        rw [hnotin] at this
        exact Bool.false_ne_true this
    rw [ih (acc ++ [(k, v)]) ck hsafe' hdist' hfresh']
    simp

theorem serializeEntries_map (m : List (Str × YamlValue))
    (hsafe : m.all (fun e => safeKey e.1 && safeVal e.2) = true) :
    serializeEntries m 0 = m.map (fun e => lineOf e.1 e.2) := by
  induction m with
  | nil => simp [serializeEntries]
  | cons e rest ih =>
    obtain ⟨k, v⟩ := e
    have hks : safeKey k = true ∧ safeVal v = true := by
      have := (List.all_eq_true.mp hsafe) (k, v) (by simp)
      simpa [Bool.and_eq_true] using this
    have hsafe' : rest.all (fun e => safeKey e.1 && safeVal e.2) = true := by
      rw [List.all_eq_true] at hsafe ⊢
      exact fun x hx => hsafe x (by simp [hx])
    simp only [serializeEntries]
    rw [entryPush_safe k v hks.2, ih hsafe', List.map_cons]
    rfl

/-- The round-trip of a safe mapping. -/
theorem parse_serialize_safe (m : List (Str × YamlValue))
    (h : safeMap m = true) : parseYaml (serializeYaml m 0) = m := by
  have hdist : keysDistinct (m.map Prod.fst) = true := by
    simp only [safeMap, Bool.and_eq_true] at h
    exact h.1
  have hsafe : m.all (fun e => safeKey e.1 && safeVal e.2) = true := by
    simp only [safeMap, Bool.and_eq_true] at h
    exact h.2
  cases m with
  | nil =>
    have h1 : serializeYaml [] 0 = ['\n'] := by
      simp [serializeYaml, serializeEntries, jsJoin]
    rw [h1]
    rfl
  | cons e rest =>
    have hser : serializeYaml (e :: rest) 0 =
        jsJoin '\n' ((e :: rest).map (fun e => lineOf e.1 e.2)) ++ ['\n'] := by
      simp only [serializeYaml]
      rw [serializeEntries_map _ hsafe]
    have hsplit : jsSplit '\n' (serializeYaml (e :: rest) 0) =
        ((e :: rest).map (fun e => lineOf e.1 e.2)) ++ [[]] := by
      rw [hser]
      refine split_join_lines _ (by simp) ?_
      intro l hl x hx
      obtain ⟨e', he', rfl⟩ := List.mem_map.mp hl
      have hks : safeKey e'.1 = true ∧ safeVal e'.2 = true := by
        have := (List.all_eq_true.mp hsafe) e' he'
        simpa [Bool.and_eq_true] using this
      exact lineOf_no_nl e'.1 e'.2 hks.1 hks.2 x hx
    show (let st := (jsSplit '\n' (serializeYaml (e :: rest) 0)).foldl parseLine
            ⟨[], [], false, []⟩
          if st.inArray && !st.currentKey.isEmpty then
            objSet st.result st.currentKey (.list st.arrayItems)
          else st.result) = e :: rest
    rw [hsplit, List.foldl_append,
        parse_fold_lines (e :: rest) [] [] hsafe hdist (by simp)]
    rfl

/-! ## C4: the claim theorems -/

def emptyListMap : List (Str × YamlValue) := [("k".data, .list [])]

/-- C4 counterexample: the mapping `{k: []}` is built from the supported
value shapes (an ordered list), yet serializing and re-parsing it yields
`{k: [""]}` — `k: []` re-parses as a one-element list holding the empty
string — so `parse(serialize(m)) = m` fails on the supported shapes. -/
theorem yaml_roundtrip_cex :
    serializeYaml emptyListMap 0 = "k: []\n".data ∧
    parseYaml (serializeYaml emptyListMap 0) =
      [("k".data, YamlValue.list [YamlValue.str []])] ∧
    parseYaml (serializeYaml emptyListMap 0) ≠ emptyListMap := by
  have h1 : serializeYaml emptyListMap 0 = "k: []\n".data := by
    simp only [emptyListMap, serializeYaml, serializeEntries, entryPush, indentStr]
    decide
  have h2 : parseYaml "k: []\n".data =
      [("k".data, YamlValue.list [YamlValue.str []])] := rfl
  refine ⟨h1, ?_, ?_⟩
  · rw [h1, h2]
  · rw [h1, h2]
    intro hcontra
    simp [emptyListMap] at hcontra

/-- C4 (amended): `parse(serialize(m)) = m` holds for flat mappings with
distinct plain keys whose values are booleans, null, integers, plain
scalar strings, or nonempty inline lists of such strings/integers
(`safeMap`); it fails on other supported shapes — the empty list comes
back as `[""]`, and nested mappings are flattened — so the unrestricted
contract over all supported value shapes does not hold. -/
theorem yaml_roundtrip_amended (m : List (Str × YamlValue))
    (h : safeMap m = true) : parseYaml (serializeYaml m 0) = m :=
  parse_serialize_safe m h

def safeExampleMap : List (Str × YamlValue) :=
  [("title".data, .str "project notes".data),
   ("count".data, .num 42),
   ("draft".data, .bool true),
   ("reviewed".data, .null),
   ("tags".data, .list [.str "work".data, .num 7])]

theorem yaml_roundtrip_amended_witness :
    safeMap safeExampleMap = true ∧
    parseYaml (serializeYaml safeExampleMap 0) = safeExampleMap :=
  ⟨by decide, yaml_roundtrip_amended safeExampleMap (by decide)⟩

/-! ## Section-tree claims: infrastructure -/

theorem takeWhile_len_le {α : Type} (p : α → Bool) (l : List α) :
    (l.takeWhile p).length ≤ l.length := by
  induction l with
  | nil => simp
  | cons a t ih =>
    rw [List.takeWhile_cons]
    split
    · simpa using ih
    · simp

theorem dropWhile_len_le {α : Type} (p : α → Bool) (l : List α) :
    (l.dropWhile p).length ≤ l.length := by
  induction l with
  | nil => simp
  | cons a t ih =>
    rw [List.dropWhile_cons]
    split
    · exact le_trans ih (by simp)
    · simp

theorem takeWhile_app_dropWhile {α : Type} (p : α → Bool) (l : List α) :
    l.takeWhile p ++ l.dropWhile p = l := by
  induction l with
  | nil => rfl
  | cons a t ih =>
    rw [List.takeWhile_cons, List.dropWhile_cons]
    split
    · simpa using ih
    · simp

theorem takeWhile_append_all {α : Type} (p : α → Bool) (a b : List α)
    (h : ∀ x ∈ a, p x = true) : (a ++ b).takeWhile p = a ++ b.takeWhile p := by
  induction a with
  | nil => simp
  | cons x t ih =>
    rw [List.cons_append, List.takeWhile_cons, h x (by simp)]
    simp only [if_true]
    rw [ih (fun y hy => h y (by simp [hy]))]
    rfl

theorem dropWhile_append_all {α : Type} (p : α → Bool) (a b : List α)
    (h : ∀ x ∈ a, p x = true) : (a ++ b).dropWhile p = b.dropWhile p := by
  induction a with
  | nil => simp
  | cons x t ih =>
    rw [List.cons_append, List.dropWhile_cons, h x (by simp)]
    simp only [if_true]
    exact ih (fun y hy => h y (by simp [hy]))

theorem takeWhile_head_false {α : Type} (p : α → Bool) (l : List α)
    (h : ∀ x, l.head? = some x → p x = false) : l.takeWhile p = [] := by
  cases l with
  | nil => rfl
  | cons a t => rw [List.takeWhile_cons, h a rfl]; simp

theorem dropWhile_head_false {α : Type} (p : α → Bool) (l : List α)
    (h : ∀ x, l.head? = some x → p x = false) : l.dropWhile p = l := by
  cases l with
  | nil => rfl
  | cons a t => rw [List.dropWhile_cons, h a rfl]; simp

theorem takeWhile_len_lt_cons {α : Type} (p : α → Bool) (a : α) (l : List α) :
    (l.takeWhile p).length < (a :: l).length := by
  have := takeWhile_len_le p l
  simp only [List.length_cons]
  omega

theorem dropWhile_len_lt_cons {α : Type} (p : α → Bool) (a : α) (l : List α) :
    (l.dropWhile p).length < (a :: l).length := by
  have := dropWhile_len_le p l
  simp only [List.length_cons]
  omega

/-- The pop condition of `buildHierarchy` seen from below: a section stays
open while the incoming one is strictly deeper. -/
def deeper (lv : Nat) (t : Section) : Bool := lv < t.level

/-- The recursive characterization of the stack algorithm: a heading's
subtree is built from the maximal run of strictly deeper sections after
it; a `heading = null` region is a childless root. -/
def spanBuild : List Section → List Section
  | [] => []
  | s :: rest =>
    if s.heading.isNone then s :: spanBuild rest
    else
      { s with children := spanBuild (rest.takeWhile (deeper s.level)) } ::
        spanBuild (rest.dropWhile (deeper s.level))
  termination_by l => l.length
  decreasing_by
  · simp only [List.length_cons]; omega
  · apply takeWhile_len_lt_cons
  · apply dropWhile_len_lt_cons

theorem spanBuild_ne_nil (l : List Section) (h : l ≠ []) : spanBuild l ≠ [] := by
  cases l with
  | nil => exact absurd rfl h
  | cons s rest =>
    rw [spanBuild]
    split
    · simp
    · simp

/-- One pop-and-attach step: the popped frame joins the frame below, or
the completed roots when the stack is empty. -/
def attachS (t : Section) : List Section → List Section →
    List Section × List Section
  | [], roots => ([], roots ++ [t])
  | q :: qs, roots => (addChild q t :: qs, roots)

theorem attachPop_cons (lvl : Nat) (t : Section) (rest roots : List Section)
    (h : lvl ≤ t.level) :
    attachPop lvl (t :: rest) roots =
      attachPop lvl (attachS t rest roots).1 (attachS t rest roots).2 := by
  cases rest with
  | nil => rw [attachPop]; simp [h, attachS]
  | cons q qs => rw [attachPop]; simp [h, attachS]

theorem attachPop_cons_stop (lvl : Nat) (t : Section) (rest roots : List Section)
    (h : ¬ lvl ≤ t.level) :
    attachPop lvl (t :: rest) roots = (t :: rest, roots) := by
  cases rest with
  | nil => rw [attachPop]; simp [h]
  | cons q qs => rw [attachPop]; simp [h]

theorem collapseStack_cons (t : Section) (rest roots : List Section) :
    collapseStack (t :: rest) roots =
      collapseStack (attachS t rest roots).1 (attachS t rest roots).2 := by
  cases rest with
  | nil => simp [collapseStack, attachS]
  | cons q qs => simp [collapseStack, attachS]

theorem head?_dropWhile_false {α : Type} (p : α → Bool) (l : List α) :
    ∀ y, (l.dropWhile p).head? = some y → p y = false := by
  induction l with
  | nil => intro y hy; simp at hy
  | cons a t ih =>
    intro y hy
    rw [List.dropWhile_cons] at hy
    split at hy
    · exact ih y hy
    · rename_i hpa
      simp only [List.head?_cons, Option.some_inj] at hy
      subst hy
      simpa using hpa

theorem head?_takeWhile {α : Type} (p : α → Bool) (l : List α) :
    ∀ y, (l.takeWhile p).head? = some y → l.head? = some y := by
  induction l with
  | nil => intro y hy; simp at hy
  | cons a t _ =>
    intro y hy
    rw [List.takeWhile_cons] at hy
    split at hy
    · simpa using hy
    · simp at hy

theorem isNone_false_of_ne_none {α : Type} (o : Option α) (h : o ≠ none) :
    o.isNone = false := by
  cases o with
  | none => exact absurd rfl h
  | some v => rfl

theorem frame_eq (p x' : Section) (s2 : List Section) :
    Section.mk (addChild p x').heading (addChild p x').level
      (addChild p x').startLine (addChild p x').endLine
      (addChild p x').lineCount ((addChild p x').children ++ s2) =
    { p with children := p.children ++ (x' :: s2) } := by
  cases p
  simp [addChild]

theorem hierGo_nil_eq (st r : List Section) :
    hierGo [] st r = collapseStack st r := by
  simp [hierGo]

theorem sec_eta (p : Section) :
    ({ p with children := p.children } : Section) = p := by
  cases p
  rfl

theorem hierGo_frame : ∀ (n : Nat) (l : List Section), l.length ≤ n →
    (∀ t ∈ l, t.heading ≠ none ∧ t.children = []) →
    ∀ (p : Section) (st r : List Section),
    hierGo l (p :: st) r =
      hierGo (l.dropWhile (deeper p.level))
        (attachS { p with children :=
            p.children ++ spanBuild (l.takeWhile (deeper p.level)) } st r).1
        (attachS { p with children :=
            p.children ++ spanBuild (l.takeWhile (deeper p.level)) } st r).2 := by
  intro n
  induction n with
  | zero =>
    intro l hl _ p st r
    have : l = [] := List.length_eq_zero.mp (Nat.le_zero.mp hl)
    subst this
    simp only [List.takeWhile_nil, List.dropWhile_nil, spanBuild,
      List.append_nil]
    rw [sec_eta p, hierGo_nil_eq, hierGo_nil_eq]
    exact collapseStack_cons p st r
  | succ n ih =>
    intro l hl hprops p st r
    cases l with
    | nil =>
      simp only [List.takeWhile_nil, List.dropWhile_nil, spanBuild,
        List.append_nil]
      rw [sec_eta p, hierGo_nil_eq, hierGo_nil_eq]
      exact collapseStack_cons p st r
    | cons x rest =>
      have hx := hprops x (by simp)
      have hxn : x.heading.isNone = false := isNone_false_of_ne_none _ hx.1
      have hrest_le : rest.length ≤ n := by
        simp only [List.length_cons] at hl; omega
      have hrest_props : ∀ t ∈ rest, t.heading ≠ none ∧ t.children = [] :=
        fun t ht => hprops t (by simp [ht])
      by_cases hlev : p.level < x.level
      · -- the incoming heading is strictly deeper: it is pushed and ends up
        -- among the frame's children
        have hdx : deeper p.level x = true := by simp [deeper, hlev]
        have hnopop : ¬ x.level ≤ p.level := by omega
        have hLHS : hierGo (x :: rest) (p :: st) r =
            hierGo rest (x :: p :: st) r := by
          simp only [hierGo, hxn, Bool.false_eq_true, if_false,
            attachPop_cons_stop x.level p st r hnopop]
        rw [hLHS, ih rest hrest_le hrest_props x (p :: st) r]
        simp only [attachS, hx.2, List.nil_append]
        have hsibs_le : (rest.dropWhile (deeper x.level)).length ≤ n := by
          have h1 := dropWhile_len_le (deeper x.level) rest
          omega
        have hsibs_props : ∀ t ∈ rest.dropWhile (deeper x.level),
            t.heading ≠ none ∧ t.children = [] := by
          intro t ht
          refine hprops t (by
            simp only [List.mem_cons]
            right
            rw [← takeWhile_app_dropWhile (deeper x.level) rest]
            exact List.mem_append.mpr (Or.inr ht))
        rw [ih (rest.dropWhile (deeper x.level)) hsibs_le hsibs_props (addChild p { x with children := spanBuild (rest.takeWhile (deeper x.level)) }) st r]
        have hlvl : (addChild p { x with children := spanBuild (rest.takeWhile (deeper x.level)) }).level = p.level := rfl
        rw [frame_eq p _ _, hlvl]
        have hdescx_all : ∀ t ∈ rest.takeWhile (deeper x.level),
            deeper p.level t = true := by
          intro t ht
          have := List.mem_takeWhile_imp ht
          simp only [deeper, decide_eq_true_eq] at this ⊢
          omega
        have hS2head : ∀ y,
            ((rest.dropWhile (deeper x.level)).takeWhile
              (deeper p.level)).head? = some y →
            deeper x.level y = false := by
          intro y hy
          exact head?_dropWhile_false (deeper x.level) rest y
            (head?_takeWhile _ _ y hy)
        have hdw : (x :: rest).dropWhile (deeper p.level) =
            (rest.dropWhile (deeper x.level)).dropWhile (deeper p.level) := by
          rw [List.dropWhile_cons, hdx]
          simp only [if_true]
          conv_lhs => rw [← takeWhile_app_dropWhile (deeper x.level) rest]
          exact dropWhile_append_all _ _ _ hdescx_all
        have hspan : spanBuild ((x :: rest).takeWhile (deeper p.level)) =
            { x with children := spanBuild (rest.takeWhile (deeper x.level)) } ::
              spanBuild ((rest.dropWhile (deeper x.level)).takeWhile
                (deeper p.level)) := by
          have htw : (x :: rest).takeWhile (deeper p.level) =
              x :: (rest.takeWhile (deeper x.level) ++
                (rest.dropWhile (deeper x.level)).takeWhile (deeper p.level)) := by
            rw [List.takeWhile_cons, hdx]
            simp only [if_true]
            congr 1
            conv_lhs => rw [← takeWhile_app_dropWhile (deeper x.level) rest]
            exact takeWhile_append_all _ _ _ hdescx_all
          rw [htw, spanBuild, hxn]
          simp only [Bool.false_eq_true, if_false]
          congr 2
          · rw [takeWhile_append_all (deeper x.level) _ _
                  (fun t ht => List.mem_takeWhile_imp ht),
                takeWhile_head_false _ _ hS2head, List.append_nil]
          · rw [dropWhile_append_all (deeper x.level) _ _
                  (fun t ht => List.mem_takeWhile_imp ht),
                dropWhile_head_false _ _ hS2head]
        rw [hdw, hspan]
        simp only [attachS]
      · -- the incoming heading closes this frame
        have hdx : deeper p.level x = false := by simp [deeper, hlev]
        have hpop : x.level ≤ p.level := by omega
        have htw : (x :: rest).takeWhile (deeper p.level) = [] := by
          rw [List.takeWhile_cons, hdx]; simp
        have hdw : (x :: rest).dropWhile (deeper p.level) = x :: rest := by
          rw [List.dropWhile_cons, hdx]; simp
        rw [htw, hdw]
        rw [show spanBuild [] = [] from by simp [spanBuild], List.append_nil,
            sec_eta p]
        have hLHS : hierGo (x :: rest) (p :: st) r =
            hierGo rest
              (x :: (attachPop x.level (attachS p st r).1 (attachS p st r).2).1)
              (attachPop x.level (attachS p st r).1 (attachS p st r).2).2 := by
          simp only [hierGo, hxn, Bool.false_eq_true, if_false,
            attachPop_cons x.level p st r hpop]
        have hRHS : hierGo (x :: rest) (attachS p st r).1 (attachS p st r).2 =
            hierGo rest
              (x :: (attachPop x.level (attachS p st r).1 (attachS p st r).2).1)
              (attachPop x.level (attachS p st r).1 (attachS p st r).2).2 := by
          simp only [hierGo, hxn, Bool.false_eq_true, if_false]
        rw [hLHS, hRHS]

theorem hierGo_top : ∀ (n : Nat) (l : List Section), l.length ≤ n →
    (∀ t ∈ l, t.heading ≠ none ∧ t.children = []) →
    ∀ roots, hierGo l [] roots = roots ++ spanBuild l := by
  intro n
  induction n with
  | zero =>
    intro l hl _ roots
    have : l = [] := List.length_eq_zero.mp (Nat.le_zero.mp hl)
    subst this
    simp [hierGo, collapseStack, spanBuild]
  | succ n ih =>
    intro l hl hprops roots
    cases l with
    | nil => simp [hierGo, collapseStack, spanBuild]
    | cons x rest =>
      have hx := hprops x (by simp)
      have hxn : x.heading.isNone = false := isNone_false_of_ne_none _ hx.1
      have hrest_le : rest.length ≤ n := by
        simp only [List.length_cons] at hl; omega
      have hrest_props : ∀ t ∈ rest, t.heading ≠ none ∧ t.children = [] :=
        fun t ht => hprops t (by simp [ht])
      have hstep : hierGo (x :: rest) [] roots = hierGo rest [x] roots := by
        simp only [hierGo, hxn, Bool.false_eq_true, if_false]
        rw [show attachPop x.level [] roots = ([], roots) from by rw [attachPop]]
      rw [hstep, hierGo_frame n rest hrest_le hrest_props x [] roots]
      simp only [attachS, hx.2, List.nil_append]
      have hsibs_le : (rest.dropWhile (deeper x.level)).length ≤ n := by
        have h1 := dropWhile_len_le (deeper x.level) rest
        omega
      have hsibs_props : ∀ t ∈ rest.dropWhile (deeper x.level),
          t.heading ≠ none ∧ t.children = [] := by
        intro t ht
        refine hrest_props t ?_
        rw [← takeWhile_app_dropWhile (deeper x.level) rest]
        exact List.mem_append.mpr (Or.inr ht)
      rw [ih (rest.dropWhile (deeper x.level)) hsibs_le hsibs_props]
      have hspan : spanBuild (x :: rest) =
          { x with children := spanBuild (rest.takeWhile (deeper x.level)) } ::
            spanBuild (rest.dropWhile (deeper x.level)) := by
        rw [spanBuild, hxn]
        simp
      rw [hspan, List.append_assoc]
      rfl

theorem buildHierarchy_spanBuild (l : List Section)
    (hch : ∀ t ∈ l, t.children = [])
    (htl : ∀ t ∈ l.tail, t.heading ≠ none) :
    buildHierarchy l = spanBuild l := by
  cases l with
  | nil => simp [buildHierarchy, hierGo, collapseStack, spanBuild]
  | cons x rest =>
    by_cases hxh : x.heading = none
    · have hxn : x.heading.isNone = true := by simp [hxh]
      have hrest : ∀ t ∈ rest, t.heading ≠ none ∧ t.children = [] :=
        fun t ht => ⟨htl t (by simpa using ht), hch t (by simp [ht])⟩
      show hierGo (x :: rest) [] [] = spanBuild (x :: rest)
      rw [show hierGo (x :: rest) [] [] = hierGo rest [] [x] from by
            simp [hierGo, hxn],
          hierGo_top rest.length rest le_rfl hrest [x],
          spanBuild, hxn]
      simp
    · have hall : ∀ t ∈ x :: rest, t.heading ≠ none ∧ t.children = [] := by
        intro t ht
        rcases List.mem_cons.mp ht with h | h
        · exact ⟨h ▸ hxh, hch t ht⟩
        · exact ⟨htl t (by simpa using h), hch t ht⟩
      rw [show buildHierarchy (x :: rest) = hierGo (x :: rest) [] [] from rfl,
          hierGo_top (x :: rest).length (x :: rest) le_rfl hall []]
      simp

/-! ## Section-tree invariants (claim C5 machinery) -/

/-- `s` ends strictly before `t` starts: the two line ranges are disjoint
and in document order. -/
def disjOrd (s t : Section) : Bool :=
  decide (s.endLine < t.startLine)

/-- Every earlier list element is related to every later one. -/
def pairwiseB (r : Section → Section → Bool) : List Section → Bool
  | [] => true
  | s :: rest => rest.all (r s) && pairwiseB r rest

/-- Structural well-formedness of one section: nonempty range, every child
strictly inside the parent's range below the heading line, children pairwise
disjoint and in document order, and recursively well-formed. -/
def secWF (s : Section) : Bool :=
  decide (s.startLine ≤ s.endLine) &&
  s.children.all (fun c =>
    decide (s.startLine < c.startLine) && decide (c.endLine ≤ s.endLine)) &&
  pairwiseB disjOrd s.children &&
  s.children.attach.all (fun c => secWF c.1)
  termination_by sizeOf s
  decreasing_by
    have h1 := List.sizeOf_lt_of_mem c.2
    have h2 := sizeOf_children_lt s
    omega

/-- Well-formedness of a root list: pairwise disjoint ordered roots, each
recursively well-formed. -/
def forestWF (l : List Section) : Bool :=
  pairwiseB disjOrd l && l.all secWF

theorem all_attach (l : List Section) (p : Section → Bool) :
    (l.attach.all fun c => p c.1) = l.all p := by
  rw [Bool.eq_iff_iff, List.all_eq_true, List.all_eq_true]
  constructor
  · intro h x hx
    exact h ⟨x, hx⟩ (List.mem_attach _ _)
  · intro h c _
    exact h c.1 c.2

theorem secWF_spec (s : Section) : secWF s =
    (decide (s.startLine ≤ s.endLine) &&
     s.children.all (fun c =>
       decide (s.startLine < c.startLine) && decide (c.endLine ≤ s.endLine)) &&
     pairwiseB disjOrd s.children &&
     s.children.all secWF) := by
  rw [secWF, all_attach]

/-- `l` tiles the line range `[a, b]` exactly: consecutive nonempty regions,
the first starting at `a`, the last ending at `b`. -/
def covers : Nat → Nat → List Section → Prop
  | a, b, [] => a = b + 1
  | a, b, s :: rest => s.startLine = a ∧ a ≤ s.endLine ∧
      covers (s.endLine + 1) b rest

theorem covers_le {l : List Section} : ∀ {a b : Nat}, covers a b l →
    a ≤ b + 1 := by
  induction l with
  | nil => intro a b h; exact Nat.le_of_eq h
  | cons s rest ih =>
    intro a b h
    obtain ⟨-, h2, h3⟩ := h
    have := ih h3
    omega

theorem covers_mem_bounds {l : List Section} : ∀ {a b : Nat}, covers a b l →
    ∀ t ∈ l, a ≤ t.startLine ∧ t.startLine ≤ t.endLine ∧ t.endLine ≤ b := by
  induction l with
  | nil => intro a b _ t ht; cases ht
  | cons s rest ih =>
    intro a b h t ht
    obtain ⟨h1, h2, h3⟩ := h
    have hle := covers_le h3
    rcases List.mem_cons.mp ht with rfl | hm
    · omega
    · have := ih h3 t hm
      omega

theorem covers_append {u : List Section} : ∀ {v : List Section} {a m b : Nat},
    covers a m u → covers (m + 1) b v → covers a b (u ++ v) := by
  induction u with
  | nil => intro v a m b h1 h2; rw [show a = m + 1 from h1]; exact h2
  | cons s u' ih =>
    intro v a m b h1 h2
    obtain ⟨hs, ha, hc⟩ := h1
    exact ⟨hs, ha, ih hc h2⟩

theorem covers_split {u : List Section} : ∀ {v : List Section} {a b : Nat},
    covers a b (u ++ v) → 1 ≤ a →
    ∃ m, covers a m u ∧ covers (m + 1) b v ∧ a ≤ m + 1 := by
  induction u with
  | nil =>
    intro v a b h ha
    exact ⟨a - 1, by simp [covers]; omega,
      by rw [show a - 1 + 1 = a from by omega]; exact h, by omega⟩
  | cons s u' ih =>
    intro v a b h ha
    obtain ⟨hs, hae, hc⟩ := h
    obtain ⟨m, hm1, hm2, hm3⟩ := ih hc (by omega)
    exact ⟨m, ⟨hs, hae, hm1⟩, hm2, by omega⟩

theorem covers_getLastD {l : List Section} : ∀ {a b : Nat} {d : Section},
    covers a b l → l ≠ [] → (l.getLastD d).endLine = b := by
  induction l with
  | nil => intro a b d _ h; exact absurd rfl h
  | cons s rest ih =>
    intro a b d h _
    obtain ⟨-, -, hc⟩ := h
    cases rest with
    | nil => simpa [List.getLastD, covers] using hc
    | cons s' r' =>
      rw [show (s :: s' :: r').getLastD d = (s' :: r').getLastD s from rfl]
      exact ih hc (by simp)

theorem covers_pairwise {l : List Section} : ∀ {a b : Nat}, covers a b l →
    pairwiseB disjOrd l = true := by
  induction l with
  | nil => intro a b _; rfl
  | cons s rest ih =>
    intro a b h
    obtain ⟨-, -, hc⟩ := h
    rw [pairwiseB, Bool.and_eq_true]
    refine ⟨List.all_eq_true.mpr fun t ht => ?_, ih hc⟩
    have := covers_mem_bounds hc t ht
    simp only [disjOrd, decide_eq_true_eq]
    omega

theorem fixSecs_nil : fixSecs [] = [] := by rw [fixSecs]

theorem fixSecs_cons (s : Section) (r : List Section) :
    fixSecs (s :: r) = fixSec s :: fixSecs r := by rw [fixSecs]

theorem fixSec_leaf (s : Section) (h : s.children = []) : fixSec s = s := by
  rw [fixSec]
  split
  · rfl
  · next c cs heq => rw [h] at heq; cases heq

theorem fixSec_cons (s c : Section) (cs : List Section)
    (h : s.children = c :: cs) :
    fixSec s = { s with
      endLine := max s.endLine ((fixSecs (c :: cs)).getLastD s).endLine,
      lineCount :=
        max s.endLine ((fixSecs (c :: cs)).getLastD s).endLine + 1 - s.startLine,
      children := fixSecs (c :: cs) } := by
  rw [fixSec]
  split
  · next heq => rw [h] at heq; cases heq
  · next c' cs' heq =>
    rw [h] at heq
    cases heq
    rfl

theorem spanFix_inv : ∀ (n : Nat) (l : List Section), l.length ≤ n →
    ∀ (a b : Nat), 1 ≤ a → covers a b l → (∀ t ∈ l, t.children = []) →
    covers a b (fixSecs (spanBuild l)) ∧
    ∀ s ∈ fixSecs (spanBuild l), secWF s = true := by
  intro n
  induction n with
  | zero =>
    intro l hl a b _ hcov _
    have : l = [] := List.length_eq_zero.mp (Nat.le_zero.mp hl)
    subst this
    rw [show spanBuild [] = [] from by simp [spanBuild], fixSecs_nil]
    exact ⟨hcov, by intro s hs; cases hs⟩
  | succ n ih =>
    intro l hl a b ha hcov hch
    cases l with
    | nil =>
      rw [show spanBuild [] = [] from by simp [spanBuild], fixSecs_nil]
      exact ⟨hcov, by intro s hs; cases hs⟩
    | cons x rest =>
      obtain ⟨hxs, hxe, hcr⟩ := hcov
      have hxch : x.children = [] := hch x (by simp)
      have hrch : ∀ t ∈ rest, t.children = [] :=
        fun t ht => hch t (by simp [ht])
      have hrest_le : rest.length ≤ n := by
        simp only [List.length_cons] at hl; omega
      by_cases hxh : x.heading.isNone
      · have hspanx : spanBuild (x :: rest) = x :: spanBuild rest := by
          rw [spanBuild, hxh]
          simp
        rw [hspanx, fixSecs_cons, fixSec_leaf x hxch]
        obtain ⟨ihc, ihw⟩ := ih rest hrest_le (x.endLine + 1) b
          (by omega) hcr hrch
        refine ⟨⟨hxs, hxe, ihc⟩, ?_⟩
        intro s hs
        rcases List.mem_cons.mp hs with rfl | hm
        · rw [secWF_spec, hxch]
          simp only [List.all_nil, pairwiseB, Bool.and_true]
          simp only [decide_eq_true_eq]
          omega
        · exact ihw s hm
      · have hxn : x.heading.isNone = false := Bool.eq_false_iff.mpr hxh
        have hspanx : spanBuild (x :: rest) =
            { x with children := spanBuild (rest.takeWhile (deeper x.level)) } ::
              spanBuild (rest.dropWhile (deeper x.level)) := by
          rw [spanBuild, hxn]
          simp
        rw [hspanx, fixSecs_cons]
        have hsplit0 : covers (x.endLine + 1) b
            (rest.takeWhile (deeper x.level) ++
              rest.dropWhile (deeper x.level)) := by
          rw [takeWhile_app_dropWhile]
          exact hcr
        obtain ⟨m, hcd, hcs, hml⟩ := covers_split hsplit0 (by omega)
        have hdesc_le : (rest.takeWhile (deeper x.level)).length ≤ n := by
          have := takeWhile_len_le (deeper x.level) rest
          omega
        have hsibs_le : (rest.dropWhile (deeper x.level)).length ≤ n := by
          have := dropWhile_len_le (deeper x.level) rest
          omega
        have hdch : ∀ t ∈ rest.takeWhile (deeper x.level), t.children = [] := by
          intro t ht
          refine hrch t ?_
          rw [← takeWhile_app_dropWhile (deeper x.level) rest]
          exact List.mem_append.mpr (Or.inl ht)
        have hsch : ∀ t ∈ rest.dropWhile (deeper x.level), t.children = [] := by
          intro t ht
          refine hrch t ?_
          rw [← takeWhile_app_dropWhile (deeper x.level) rest]
          exact List.mem_append.mpr (Or.inr ht)
        obtain ⟨ihdc, ihdw⟩ := ih (rest.takeWhile (deeper x.level)) hdesc_le
          (x.endLine + 1) m (by omega) hcd hdch
        obtain ⟨ihsc, ihsw⟩ := ih (rest.dropWhile (deeper x.level)) hsibs_le
          (m + 1) b (by omega) hcs hsch
        cases hsd : spanBuild (rest.takeWhile (deeper x.level)) with
        | nil =>
          rw [hsd, fixSecs_nil] at ihdc
          have hmx : x.endLine = m := by
            simpa [covers] using ihdc
          subst hmx
          have hxeq : ({ x with children := ([] : List Section) } :
              Section) = x := by
            rw [← hxch]
            exact sec_eta x
          rw [hxeq, fixSec_leaf x hxch]
          refine ⟨⟨hxs, hxe, ihsc⟩, ?_⟩
          intro s hs
          rcases List.mem_cons.mp hs with rfl | hm
          · rw [secWF_spec, hxch]
            simp only [List.all_nil, pairwiseB, Bool.and_true]
            simp only [decide_eq_true_eq]
            omega
          · exact ihsw s hm
        | cons c cs =>
          rw [hsd] at ihdc ihdw
          have hFd_ne : fixSecs (c :: cs) ≠ [] := by
            rw [fixSecs_cons]
            simp
          have hfix : fixSec ({ x with children := (c :: cs : List Section) }) = { x with endLine := m, lineCount := m + 1 - x.startLine, children := fixSecs (c :: cs) } := by
            have hlast : ((fixSecs (c :: cs)).getLastD
                ({ x with children := (c :: cs : List Section) })).endLine = m :=
              covers_getLastD ihdc hFd_ne
            rw [fixSec_cons _ c cs rfl]
            rw [hlast]
            dsimp only []
            simp only [Section.mk.injEq]
            refine ⟨trivial, trivial, trivial, ?_, ?_, trivial⟩ <;> omega
          rw [hfix]
          refine ⟨⟨hxs, show a ≤ m by omega,
            show covers (m + 1) b (fixSecs
              (spanBuild (rest.dropWhile (deeper x.level)))) from ihsc⟩, ?_⟩
          intro s hs
          rcases List.mem_cons.mp hs with rfl | hm
          · rw [secWF_spec]
            simp only [Bool.and_eq_true, List.all_eq_true, decide_eq_true_eq]
            refine ⟨⟨⟨show x.startLine ≤ m by omega, ?_⟩, ?_⟩, ?_⟩
            · intro t ht
              have hb := covers_mem_bounds ihdc t ht
              exact ⟨show x.startLine < t.startLine by omega,
                show t.endLine ≤ m by omega⟩
            · exact covers_pairwise ihdc
            · intro t ht
              exact ihdw t ht
          · exact ihsw s hm

theorem findHeadings_bounds : ∀ (lines : List Str) (n : Nat) (c : Bool),
    ∀ h ∈ findHeadings lines n c, n ≤ h.line ∧ h.line < n + lines.length := by
  intro lines
  induction lines with
  | nil => intro n c h hh; cases hh
  | cons l rest ih =>
    intro n c h hh
    rw [findHeadings] at hh
    split_ifs at hh with h1 h2 h3
    · have := ih (n + 1) (!c) h hh
      simp only [List.length_cons]
      omega
    · have := ih (n + 1) c h hh
      simp only [List.length_cons]
      omega
    · have := ih (n + 1) c h hh
      simp only [List.length_cons]
      omega
    · split at hh
      · rcases List.mem_cons.mp hh with rfl | hm
        · exact ⟨Nat.le_refl n, show n < n + (rest.length + 1) by omega⟩
        · have := ih (n + 1) c h hm
          simp only [List.length_cons]
          omega
      · have := ih (n + 1) c h hh
        simp only [List.length_cons]
        omega

theorem findHeadings_chain : ∀ (lines : List Str) (n : Nat) (c : Bool),
    List.Chain' (fun x y : HeadInfo => x.line < y.line)
      (findHeadings lines n c) := by
  intro lines
  induction lines with
  | nil => intro n c; rw [findHeadings]; exact List.chain'_nil
  | cons l rest ih =>
    intro n c
    rw [findHeadings]
    split_ifs with h1 h2 h3
    · exact ih (n + 1) (!c)
    · exact ih (n + 1) c
    · exact ih (n + 1) c
    · split
      · refine List.chain'_cons'.mpr ⟨?_, ih (n + 1) c⟩
        intro y hy
        have hmem := List.mem_of_mem_head? hy
        have := findHeadings_bounds rest (n + 1) c y hmem
        exact show n < y.line by omega
      · exact ih (n + 1) c

theorem flatHeads_props : ∀ (hs : List HeadInfo) (total : Nat),
    ∀ t ∈ flatHeads hs total, t.heading ≠ none ∧ t.children = [] := by
  intro hs
  induction hs with
  | nil => intro total t ht; cases ht
  | cons h tl ih =>
    intro total t ht
    cases tl with
    | nil =>
      rcases List.mem_cons.mp ht with rfl | hm
      · exact ⟨by simp [mkFlat], rfl⟩
      · cases hm
    | cons h' r =>
      rcases List.mem_cons.mp ht with rfl | hm
      · exact ⟨by simp [mkFlat], rfl⟩
      · exact ih total t hm

theorem flatHeads_covers : ∀ (hs : List HeadInfo) (total : Nat) (h0 : HeadInfo),
    hs.head? = some h0 →
    List.Chain' (fun x y : HeadInfo => x.line < y.line) hs →
    (∀ x ∈ hs, x.line ≤ total) →
    covers h0.line total (flatHeads hs total) := by
  intro hs
  induction hs with
  | nil => intro total h0 hh; cases hh
  | cons h tl ih =>
    intro total h0 hh hchain hbound
    have hh0 : h0 = h := by
      simpa using hh.symm
    subst hh0
    cases tl with
    | nil =>
      refine ⟨rfl, ?_, rfl⟩
      exact hbound h0 (by simp)
    | cons h' r =>
      have hlt : h0.line < h'.line := (List.chain'_cons.mp hchain).1
      refine ⟨rfl, show h0.line ≤ h'.line - 1 by omega, ?_⟩
      show covers ((h'.line - 1) + 1) total (flatHeads (h' :: r) total)
      rw [show h'.line - 1 + 1 = h'.line from by omega]
      exact ih total h' rfl (List.chain'_cons.mp hchain).2
        (fun x hx => hbound x (by simp [hx]))

/-- The split lines of the document, as `parseSections` computes them. -/
def docLines (content : Str) : List Str := jsSplit '\n' content

/-- The 1-indexed line at which heading scanning starts. -/
def scanStart (content : Str) : Nat := contentStartOf (docLines content)

/-- The headings `parseSections` extracts from the document. -/
def headsOf (content : Str) : List HeadInfo :=
  findHeadings ((docLines content).drop (scanStart content - 1))
    (scanStart content) false

/-- The flat section list `parseSections` builds before nesting. -/
def flatOf (content : Str) : List Section :=
  flatSections (headsOf content) (scanStart content) (docLines content).length

theorem parseSections_eq (content : Str) : parseSections content =
    ⟨sectionFrontmatter (docLines content),
     fixSecs (buildHierarchy (flatOf content)), (docLines content).length⟩ :=
  rfl

theorem contentStartOf_pos (lines : List Str) : 1 ≤ contentStartOf lines := by
  rw [contentStartOf]
  split <;> omega

theorem flatSections_children : ∀ (hs : List HeadInfo) (cs total : Nat),
    ∀ t ∈ flatSections hs cs total, t.children = [] := by
  intro hs cs total t ht
  cases hs with
  | nil => cases ht
  | cons h r =>
    rw [flatSections] at ht
    split_ifs at ht with h1
    · rcases List.mem_cons.mp ht with rfl | hm
      · rfl
      · exact (flatHeads_props (h :: r) total t hm).2
    · exact (flatHeads_props (h :: r) total t ht).2

theorem flatSections_tail : ∀ (hs : List HeadInfo) (cs total : Nat),
    ∀ t ∈ (flatSections hs cs total).tail, t.heading ≠ none := by
  intro hs cs total t ht
  cases hs with
  | nil => cases ht
  | cons h r =>
    rw [flatSections] at ht
    split_ifs at ht with h1
    · exact (flatHeads_props (h :: r) total t (by simpa using ht)).1
    · exact (flatHeads_props (h :: r) total t (List.mem_of_mem_tail ht)).1

theorem flatSections_covers : ∀ (hs : List HeadInfo) (cs total : Nat)
    (h0 : HeadInfo) (r : List HeadInfo), hs = h0 :: r → 1 ≤ cs →
    List.Chain' (fun x y : HeadInfo => x.line < y.line) hs →
    (∀ x ∈ hs, cs ≤ x.line ∧ x.line ≤ total) →
    ∃ a, 1 ≤ a ∧ covers a total (flatSections hs cs total) := by
  intro hs cs total h0 r hhs hcs hchain hbound
  subst hhs
  rw [flatSections]
  split_ifs with h1
  · refine ⟨cs, hcs, rfl, show cs ≤ h0.line - 1 by omega, ?_⟩
    show covers ((h0.line - 1) + 1) total (flatHeads (h0 :: r) total)
    rw [show h0.line - 1 + 1 = h0.line from by omega]
    exact flatHeads_covers (h0 :: r) total h0 rfl hchain
      (fun x hx => (hbound x hx).2)
  · exact ⟨h0.line, by have := hbound h0 (by simp); omega,
      flatHeads_covers (h0 :: r) total h0 rfl hchain
        (fun x hx => (hbound x hx).2)⟩

theorem flatOf_children (content : Str) :
    ∀ t ∈ flatOf content, t.children = [] :=
  flatSections_children _ _ _

theorem flatOf_tail (content : Str) :
    ∀ t ∈ (flatOf content).tail, t.heading ≠ none :=
  flatSections_tail _ _ _

/-- C5: for every input document, in the section tree returned by the
parser every section's range is nonempty and bounds all its children's
(`endLine ≥` every child's `endLine`); the children of every section, and
the root sections, are pairwise disjoint and ordered by document order; and
every child's range lies strictly inside its parent's range below the
parent's own heading line (`parent.startLine < child.startLine` and
`child.endLine ≤ parent.endLine`). -/
theorem section_tree_invariants (content : Str) :
    forestWF (parseSections content).sections = true := by
  rw [parseSections_eq]
  show forestWF (fixSecs (buildHierarchy (flatOf content))) = true
  rw [buildHierarchy_spanBuild (flatOf content) (flatOf_children content)
    (flatOf_tail content)]
  cases hh : headsOf content with
  | nil =>
    rw [show flatOf content = [] from by rw [flatOf, hh]; rfl,
      show spanBuild [] = [] from by simp [spanBuild], fixSecs_nil]
    rfl
  | cons h0 r =>
    have hcs1 : 1 ≤ scanStart content := contentStartOf_pos (docLines content)
    have hne : (docLines content).drop (scanStart content - 1) ≠ [] := by
      intro he
      rw [headsOf, he, findHeadings] at hh
      cases hh
    have hlen : scanStart content - 1 < (docLines content).length := by
      by_contra hle
      exact hne (List.drop_eq_nil_of_le (by omega))
    have hbound : ∀ x ∈ headsOf content,
        scanStart content ≤ x.line ∧ x.line ≤ (docLines content).length := by
      intro x hx
      have := findHeadings_bounds _ _ _ x hx
      have hdl : ((docLines content).drop (scanStart content - 1)).length =
          (docLines content).length - (scanStart content - 1) :=
        List.length_drop _ _
      rw [hdl] at this
      omega
    obtain ⟨a, ha, hcov⟩ := flatSections_covers (headsOf content)
      (scanStart content) (docLines content).length h0 r hh hcs1
      (findHeadings_chain _ _ _) hbound
    obtain ⟨hc, hw⟩ := spanFix_inv (flatOf content).length (flatOf content)
      le_rfl a (docLines content).length ha hcov (flatOf_children content)
    rw [forestWF, Bool.and_eq_true]
    exact ⟨covers_pairwise hc, List.all_eq_true.mpr hw⟩

/-! ## Pre-order traversal of a section tree (claims C6, C7) -/

/-- Depth-first pre-order flattening of a section forest: each section
before its children, children before later siblings — the traversal order
of `findSection`. -/
def preorderSecs : List Section → List Section
  | [] => []
  | s :: rest => s :: (preorderSecs s.children ++ preorderSecs rest)
  termination_by l => sizeOf l
  decreasing_by
  · have := sizeOf_children_lt q
    simp only [List.cons.sizeOf_spec]
    omega
  · simp only [List.cons.sizeOf_spec]
    omega

/-- The identifying data of a section: heading text and start line. -/
def secKey (s : Section) : Option Str × Nat := (s.heading, s.startLine)

/-- Pre-order list of section keys. -/
def preorderKeys (l : List Section) : List (Option Str × Nat) :=
  (preorderSecs l).map secKey

theorem preorderSecs_nil : preorderSecs [] = [] := by rw [preorderSecs]

theorem preorderSecs_cons (s : Section) (r : List Section) :
    preorderSecs (s :: r) = s :: (preorderSecs s.children ++ preorderSecs r) := by
  rw [preorderSecs]

theorem preorderKeys_nil : preorderKeys [] = [] := by
  rw [preorderKeys, preorderSecs_nil]
  rfl

theorem preorderKeys_cons (s : Section) (r : List Section) :
    preorderKeys (s :: r) =
      secKey s :: (preorderKeys s.children ++ preorderKeys r) := by
  rw [preorderKeys, preorderSecs_cons]
  simp [preorderKeys, List.map_append]

theorem preorderKeys_fixSecs : ∀ (n : Nat) (l : List Section), sizeOf l ≤ n →
    preorderKeys (fixSecs l) = preorderKeys l := by
  intro n
  induction n with
  | zero =>
    intro l hl
    cases l <;> simp_all
  | succ n ih =>
    intro l hl
    cases l with
    | nil => rw [fixSecs_nil]
    | cons s r =>
      rw [fixSecs_cons]
      have hsz := List.cons.sizeOf_spec s r
      have hr : sizeOf r ≤ n := by
        have h1 : 0 < sizeOf s := by cases s; simp
        omega
      cases hc : s.children with
      | nil =>
        rw [fixSec_leaf s hc, preorderKeys_cons, preorderKeys_cons, ih r hr]
      | cons c cs =>
        rw [fixSec_cons s c cs hc, preorderKeys_cons, preorderKeys_cons]
        have hcsz : sizeOf (c :: cs) ≤ n := by
          have h1 := sizeOf_children_lt s
          rw [hc] at h1
          omega
        rw [show ({ s with
            endLine := max s.endLine ((fixSecs (c :: cs)).getLastD s).endLine,
            lineCount := max s.endLine
              ((fixSecs (c :: cs)).getLastD s).endLine + 1 - s.startLine,
            children := fixSecs (c :: cs) } : Section).children =
          fixSecs (c :: cs) from rfl]
        rw [ih (c :: cs) hcsz, ih r hr, hc]
        rfl

theorem preorderKeys_spanBuild : ∀ (n : Nat) (l : List Section),
    l.length ≤ n → (∀ t ∈ l, t.children = []) →
    preorderKeys (spanBuild l) = l.map secKey := by
  intro n
  induction n with
  | zero =>
    intro l hl _
    have : l = [] := List.length_eq_zero.mp (Nat.le_zero.mp hl)
    subst this
    rw [show spanBuild [] = [] from by simp [spanBuild], preorderKeys_nil]
    rfl
  | succ n ih =>
    intro l hl hch
    cases l with
    | nil =>
      rw [show spanBuild [] = [] from by simp [spanBuild], preorderKeys_nil]
      rfl
    | cons x rest =>
      have hxch : x.children = [] := hch x (by simp)
      have hrch : ∀ t ∈ rest, t.children = [] :=
        fun t ht => hch t (by simp [ht])
      have hrest_le : rest.length ≤ n := by
        simp only [List.length_cons] at hl; omega
      by_cases hxh : x.heading.isNone
      · rw [show spanBuild (x :: rest) = x :: spanBuild rest from by
            rw [spanBuild, hxh]; simp,
          preorderKeys_cons, hxch, ih rest hrest_le hrch, preorderKeys_nil]
        rfl
      · have hxn : x.heading.isNone = false := Bool.eq_false_iff.mpr hxh
        rw [show spanBuild (x :: rest) =
            { x with children := spanBuild (rest.takeWhile (deeper x.level)) } ::
              spanBuild (rest.dropWhile (deeper x.level)) from by
            rw [spanBuild, hxn]; simp,
          preorderKeys_cons]
        have hdesc_le : (rest.takeWhile (deeper x.level)).length ≤ n := by
          have := takeWhile_len_le (deeper x.level) rest
          omega
        have hsibs_le : (rest.dropWhile (deeper x.level)).length ≤ n := by
          have := dropWhile_len_le (deeper x.level) rest
          omega
        have hdch : ∀ t ∈ rest.takeWhile (deeper x.level), t.children = [] := by
          intro t ht
          refine hrch t ?_
          rw [← takeWhile_app_dropWhile (deeper x.level) rest]
          exact List.mem_append.mpr (Or.inl ht)
        have hsch : ∀ t ∈ rest.dropWhile (deeper x.level), t.children = [] := by
          intro t ht
          refine hrch t ?_
          rw [← takeWhile_app_dropWhile (deeper x.level) rest]
          exact List.mem_append.mpr (Or.inr ht)
        rw [show ({ x with
            children := spanBuild (rest.takeWhile (deeper x.level)) } :
              Section).children =
            spanBuild (rest.takeWhile (deeper x.level)) from rfl]
        rw [ih _ hdesc_le hdch, ih _ hsibs_le hsch, ← List.map_append,
          takeWhile_app_dropWhile]
        rfl

theorem preorderKeys_parse (content : Str) :
    preorderKeys (parseSections content).sections =
      (flatOf content).map secKey := by
  rw [parseSections_eq]
  show preorderKeys (fixSecs (buildHierarchy (flatOf content))) = _
  rw [buildHierarchy_spanBuild _ (flatOf_children content) (flatOf_tail content),
    preorderKeys_fixSecs (sizeOf (spanBuild (flatOf content))) _ le_rfl,
    preorderKeys_spanBuild (flatOf content).length _ le_rfl
      (flatOf_children content)]

theorem find_app (p : Section → Bool) (l1 l2 : List Section) :
    (l1 ++ l2).find? p = match l1.find? p with
      | some x => some x
      | none => l2.find? p := by
  induction l1 with
  | nil => simp
  | cons x xs ih =>
    by_cases h : p x
    · simp [List.find?_cons_of_pos _ h]
    · rw [List.cons_append, List.find?_cons_of_neg _ h,
        List.find?_cons_of_neg _ h, ih]

theorem findSection_preorder : ∀ (n : Nat) (l : List Section), sizeOf l ≤ n →
    ∀ h, findSection l h =
      (preorderSecs l).find? (fun s => s.heading == some h) := by
  intro n
  induction n with
  | zero =>
    intro l hl
    have : 0 < sizeOf l := by cases l <;> simp
    omega
  | succ n ih =>
    intro l hl h
    cases l with
    | nil =>
      rw [findSection, preorderSecs_nil]
      rfl
    | cons s rest =>
      have hsz := List.cons.sizeOf_spec s rest
      have hrest : sizeOf rest ≤ n := by
        have h1 : 0 < sizeOf s := by cases s; simp
        omega
      have hchild : sizeOf s.children ≤ n := by
        have h1 := sizeOf_children_lt s
        omega
      rw [findSection, preorderSecs_cons]
      by_cases hh : (s.heading == some h) = true
      · rw [if_pos hh]
        simp only [List.find?, hh]
      · have hh' : (s.heading == some h) = false := by simpa using hh
        rw [if_neg (by simp [hh'])]
        simp only [List.find?, hh']
        rw [find_app, ih s.children hchild h, ih rest hrest h]

theorem find_map_secKey (l : List Section) (h : Str) :
    (l.map secKey).find? (fun k => k.1 == some h) =
      (l.find? (fun s => s.heading == some h)).map secKey := by
  induction l with
  | nil => rfl
  | cons s r ih =>
    cases hv : (s.heading == some h) with
    | true => simp [List.find?, secKey, hv]
    | false => simp [List.find?, secKey, hv, ih]

/-- A document with two sections whose heading text is identical. -/
def notesDoc : Str := "## Notes\n\nFirst.\n\n## Notes\n\nSecond.".data

/-- The duplicated heading text. -/
def notesHeading : Str := "## Notes".data

/-- C7: `findSection` is exactly first-match over the depth-first
pre-order traversal of the section tree (each section checked before its
children, children before later siblings), so duplicate headings resolve to
the first occurrence in document order; parsing a document with two `##
Notes` headings yields two distinct sections with the same heading text but
their own start lines (1 and 5), and a lookup by that heading returns the
one starting at line 1. -/
theorem duplicate_headings_first_match :
    (∀ (l : List Section) (h : Str), findSection l h =
      (preorderSecs l).find? (fun s => s.heading == some h)) ∧
    preorderKeys (parseSections notesDoc).sections =
      [(some notesHeading, 1), (some notesHeading, 5)] ∧
    Option.map secKey
      (findSection (parseSections notesDoc).sections notesHeading) =
      some (some notesHeading, 1) := by
  refine ⟨fun l h => findSection_preorder (sizeOf l) l le_rfl h, ?_, ?_⟩
  · rw [preorderKeys_parse]
    decide
  · rw [findSection_preorder (sizeOf (parseSections notesDoc).sections) _
      le_rfl, ← find_map_secKey]
    show (preorderKeys (parseSections notesDoc).sections).find?
      (fun k => k.1 == some notesHeading) = some (some notesHeading, 1)
    rw [preorderKeys_parse]
    decide

/-- Soundness data for one extracted heading, relative to the scanned lines
`lines`, the 1-indexed number `n` of the first scanned line, and the initial
in-code flag `c`: the heading's line is in range; that line is not a fence
delimiter and does not start with `>`; its heading level and text are the
recorded ones; and the count of fence delimiter lines before it (adjusted by
the initial flag) is even, i.e. the line lies outside every fenced block. -/
def scanOK (lines : List Str) (n : Nat) (c : Bool) (info : HeadInfo) : Bool :=
  decide (n ≤ info.line) && decide (info.line - n < lines.length) &&
  (let l := lines.getD (info.line - n) []
   !fenceTest l && !strStarts l ['>'] &&
   (headingLevel l == some info.level) && (info.text == l) &&
   (((lines.take (info.line - n)).countP fenceTest +
      (if c then 1 else 0)) % 2 == 0))

theorem scanOK_cons (l : Str) (rest : List Str) (n : Nat) (c : Bool)
    (info : HeadInfo) (hn : n + 1 ≤ info.line)
    (h : scanOK rest (n + 1) (xor (fenceTest l) c) info = true) :
    scanOK (l :: rest) n c info = true := by
  have hshift : info.line - n = (info.line - (n + 1)) + 1 := by omega
  simp only [scanOK, Bool.and_eq_true, decide_eq_true_eq, beq_iff_eq] at h ⊢
  obtain ⟨⟨hn1, hlen⟩, ⟨⟨⟨ha, hb⟩, hc1⟩, hd1⟩, he1⟩ := h
  rw [hshift, List.getD_cons_succ, List.take_succ_cons, List.countP_cons,
    List.length_cons]
  refine ⟨⟨by omega, by omega⟩, ⟨⟨⟨ha, hb⟩, hc1⟩, hd1⟩, ?_⟩
  cases hf : fenceTest l <;> cases c <;>
    (try simp [hf] at he1 ⊢) <;> omega

theorem findHeadings_scanOK : ∀ (lines : List Str) (n : Nat) (c : Bool),
    ∀ info ∈ findHeadings lines n c, scanOK lines n c info = true := by
  intro lines
  induction lines with
  | nil => intro n c info hi; cases hi
  | cons l rest ih =>
    intro n c info hi
    rw [findHeadings] at hi
    split_ifs at hi with h1 h2 h3
    · have hb := findHeadings_bounds rest (n + 1) (!c) info hi
      apply scanOK_cons l rest n c info (by omega)
      rw [show xor (fenceTest l) c = !c from by rw [h1]; cases c <;> rfl]
      exact ih (n + 1) (!c) info hi
    · have hb := findHeadings_bounds rest (n + 1) c info hi
      apply scanOK_cons l rest n c info (by omega)
      rw [show xor (fenceTest l) c = c from by
        rw [Bool.eq_false_iff.mpr h1]; cases c <;> rfl]
      exact ih (n + 1) c info hi
    · have hb := findHeadings_bounds rest (n + 1) c info hi
      apply scanOK_cons l rest n c info (by omega)
      rw [show xor (fenceTest l) c = c from by
        rw [Bool.eq_false_iff.mpr h1]; cases c <;> rfl]
      exact ih (n + 1) c info hi
    · split at hi
      · next lv heq =>
        have hc : c = false := Bool.eq_false_iff.mpr h2
        subst hc
        rcases List.mem_cons.mp hi with rfl | hm
        · simp [scanOK, Bool.eq_false_iff.mpr h1, h3, heq]
        · have hb := findHeadings_bounds rest (n + 1) false info hm
          apply scanOK_cons l rest n false info (by omega)
          rw [show xor (fenceTest l) false = false from by
            rw [Bool.eq_false_iff.mpr h1]; rfl]
          exact ih (n + 1) false info hm
      · have hb := findHeadings_bounds rest (n + 1) c info hi
        apply scanOK_cons l rest n c info (by omega)
        rw [show xor (fenceTest l) c = c from by
          rw [Bool.eq_false_iff.mpr h1]; cases c <;> rfl]
        exact ih (n + 1) c info hi

/-- A document with a real heading, a fenced fake heading, and a second
real heading after the fence closes. -/
def exFenced : Str := "## Real\n\n```\n## Fake\n```\n\n## Also Real".data

/-- C6: every heading the parser extracts satisfies `scanOK`: its line is
not a fence delimiter line, does not start with `>`, and is preceded by an
even number of fence delimiter lines — so headings inside a ``` or ~~~
fenced block are never extracted, and blockquote lines are skipped
regardless of fence state; every section of the parsed tree draws its
heading and start line from this extraction (plus the optional null-heading
preamble); and parsing the document with a fenced fake heading between two
real ones yields exactly the two sections `## Real` (line 1) and
`## Also Real` (line 7), with `## Fake` skipped. -/
theorem fenced_headings_never_extracted :
    (∀ content, (headsOf content).all
      (scanOK ((docLines content).drop (scanStart content - 1))
        (scanStart content) false) = true) ∧
    (∀ content, preorderKeys (parseSections content).sections =
      (flatOf content).map secKey) ∧
    preorderKeys (parseSections exFenced).sections =
      [(some ("## Real".data), 1), (some ("## Also Real".data), 7)] := by
  refine ⟨?_, fun content => preorderKeys_parse content, ?_⟩
  · intro content
    exact List.all_eq_true.mpr fun info hi =>
      findHeadings_scanOK _ _ _ info hi
  · rw [preorderKeys_parse]
    decide
